import Mathlib

/-!
Shallow embedding of the Datastore client marshalling layer of
`google-cloud-rs` (`src/google-cloud/src/datastore/client.rs` together with
the generated wire messages in
`src/google-cloud/src/datastore/api/google.datastore.v1.rs`), and proofs of
the behavioural claims about it.

Machine integers (`i32`, `i64`, `u8`, `u32`) are modelled as `Int`/`Nat`;
none of the modelled code performs arithmetic on them, they are only
carried around.  `f64` payloads are carried opaquely (the code never
inspects them).  Byte vectors (`Vec<u8>`) are `List Nat`.  Rust `HashMap`s
are association lists with insert-replace semantics; the client only ever
builds, extends, looks up and removes, so this is an exact functional
model.  Fallible paths are explicit: an RPC call either yields a response
or a transport error, and each client operation ends in an `ok` value, a
recoverable `err`, a `panicked` marker (Rust `panic!`/`unwrap` on `None`),
or `hung` (the operation is still waiting on an RPC for which the modelled
response sequence supplies nothing).
-/

namespace Datastore

/-- Opaque carrier for a Rust `f64` payload.  The marshalling code never
inspects or computes with floating-point values, it only moves them
between the local and the wire representation, so the payload is carried
as an uninterpreted bit pattern. -/
structure F64 where
  bits : Nat
deriving DecidableEq, Repr

/-- Model of the `chrono::DateTime<Utc>` payload of a local timestamp
value.  `convert_value` only observes it through `.timestamp()` (whole
epoch seconds, `i64`) and `.timestamp_subsec_nanos()` (`u32`), so the
model carries exactly those two observations. -/
structure DateTimeUtc where
  seconds : Int
  subsecNanos : Nat
deriving DecidableEq, Repr

/-- `KeyID` (src/google-cloud/src/datastore/key.rs, used by `client.rs`
as `KeyID::Incomplete` / `KeyID::IntID` / `KeyID::StringID`). -/
inductive KeyID where
  | Incomplete : KeyID
  | IntID (id : Int) : KeyID
  | StringID (id : String) : KeyID
deriving DecidableEq, Repr

/-- The local `Key`: a (kind, identifier) node with an optional namespace
and an optional parent key (`Option<Box<Key>>` in the source).  The
optional parent is fused into the two constructors (`root` = no parent,
`child` = has parent); `Key.get_parent` recovers the `Option` view. -/
inductive Key where
  | root (kind : String) (id : KeyID) (nspace : Option String) : Key
  | child (kind : String) (id : KeyID) (nspace : Option String) (parent : Key) : Key
deriving DecidableEq, Repr

def Key.get_kind : Key → String
  | .root kind _ _ => kind
  | .child kind _ _ _ => kind

def Key.get_id : Key → KeyID
  | .root _ id _ => id
  | .child _ id _ _ => id

def Key.get_namespace : Key → Option String
  | .root _ _ nspace => nspace
  | .child _ _ nspace _ => nspace

def Key.get_parent : Key → Option Key
  | .root _ _ _ => none
  | .child _ _ _ parent => some parent

/-- Modelled from the spec: `Key::is_incomplete` lives in
`src/google-cloud/src/datastore/key.rs`, which is not among the reviewed
sources.  Per the glossary an incomplete key is "a key whose terminal
path element has no numeric ID or name"; the key value itself is its own
terminal path element, so the check is on its own identifier. -/
def Key.is_incomplete (k : Key) : Bool :=
  match k.get_id with
  | KeyID.Incomplete => true
  | _ => false

/-- The local `Value` (src/google-cloud/src/datastore/value.rs): the
variant set is exactly the set of arms of the exhaustive `match` in
`convert_value`.  The `HashMap<String, Value>` of an entity value is an
association list. -/
inductive Value where
  | BooleanValue (val : Bool) : Value
  | IntegerValue (val : Int) : Value
  | DoubleValue (val : F64) : Value
  | TimestampValue (val : DateTimeUtc) : Value
  | KeyValue (key : Key) : Value
  | StringValue (val : String) : Value
  | IndexedValue (val : Value) (flag : Bool) : Value
  | BlobValue (val : List Nat) : Value
  | GeoPointValue (latitude longitude : F64) : Value
  | EntityValue (properties : List (String × Value)) : Value
  | ArrayValue (values : List Value) : Value

/-- The local `Entity`: a key plus its properties; `client.rs` requires
`properties` to be a `Value::EntityValue` (and panics otherwise in
`convert_entity`). -/
structure Entity where
  key : Key
  properties : Value

/-- The local `Order` (query ordering), from the `match` in
`Client::query`. -/
inductive Order where
  | Asc (name : String) : Order
  | Desc (name : String) : Order

/-- The local `Filter`, from the exhaustive `match` in `convert_filter`. -/
inductive Filter where
  | Equal (name : String) (value : Value) : Filter
  | GreaterThan (name : String) (value : Value) : Filter
  | LesserThan (name : String) (value : Value) : Filter
  | GreaterThanOrEqual (name : String) (value : Value) : Filter
  | LesserThanEqual (name : String) (value : Value) : Filter
  | NotEqual (name : String) (value : Value) : Filter
  | In (name : String) (value : Value) : Filter
  | NotIn (name : String) (value : Value) : Filter

/-- The local `Query`, with exactly the fields `Client::query` reads.
The source field called `namespace` is `nspace` here (`namespace` is a
reserved word). -/
structure Query where
  kind : String
  projections : List String
  filters : List Filter
  ordering : List Order
  distinct_on : List String
  offset : Int
  limit : Option Int
  nspace : Option String
  eventual : Bool

end Datastore

namespace Datastore.api

/-- Wire `PartitionId`. -/
structure PartitionId where
  project_id : String
  namespace_id : String
deriving DecidableEq, Repr

/-- Wire `key::path_element::IdType`. -/
inductive IdType where
  | Id (id : Int) : IdType
  | Name (name : String) : IdType
deriving DecidableEq, Repr

/-- Wire `key::PathElement`. -/
structure PathElement where
  kind : String
  id_type : Option IdType
deriving DecidableEq, Repr

/-- Wire `Key`. -/
structure Key where
  partition_id : Option PartitionId
  path : List PathElement
deriving DecidableEq, Repr

/-- A wire path element is complete when either its numeric id or its
name is set ("If either name or ID is set, the element is complete. If
neither is set, the element is incomplete."). -/
def PathElement.isComplete (e : PathElement) : Bool :=
  e.id_type.isSome

/-- A wire key is complete when every element of its path is complete. -/
def Key.isComplete (k : Key) : Bool :=
  k.path.all PathElement.isComplete

/-- Wire `LatLng` (google.r#type). -/
structure LatLng where
  latitude : F64
  longitude : F64
deriving DecidableEq, Repr

/-- Wire `prost_types::Timestamp`. -/
structure Timestamp where
  seconds : Int
  nanos : Int
deriving DecidableEq, Repr

mutual
/-- Wire `Value`: `meaning`, `exclude_from_indexes` and the oneof
`value_type`. -/
inductive Value where
  | mk (meaning : Int) (exclude_from_indexes : Bool)
      (value_type : Option ValueType) : Value

/-- Wire `value::ValueType` (the oneof). -/
inductive ValueType where
  | NullValue (v : Int) : ValueType
  | BooleanValue (v : Bool) : ValueType
  | IntegerValue (v : Int) : ValueType
  | DoubleValue (v : F64) : ValueType
  | TimestampValue (v : Timestamp) : ValueType
  | KeyValue (v : Key) : ValueType
  | StringValue (v : String) : ValueType
  | BlobValue (v : List Nat) : ValueType
  | GeoPointValue (v : LatLng) : ValueType
  | EntityValue (v : Entity) : ValueType
  | ArrayValue (v : ArrayValue) : ValueType

/-- Wire `Entity`: optional key plus property map (association list). -/
inductive Entity where
  | mk (key : Option Key) (properties : List (String × Value)) : Entity

/-- Wire `ArrayValue`. -/
inductive ArrayValue where
  | mk (values : List Value) : ArrayValue
end

def Value.meaning : Value → Int
  | .mk m _ _ => m

def Value.exclude_from_indexes : Value → Bool
  | .mk _ e _ => e

def Value.value_type : Value → Option ValueType
  | .mk _ _ vt => vt

def Entity.key : Entity → Option Key
  | .mk k _ => k

def Entity.properties : Entity → List (String × Value)
  | .mk _ ps => ps

def ArrayValue.values : ArrayValue → List Value
  | .mk vs => vs

/-- Wire `PropertyReference`. -/
structure PropertyReference where
  name : String
deriving DecidableEq, Repr

/-- Wire `KindExpression`. -/
structure KindExpression where
  name : String
deriving DecidableEq, Repr

/-- Wire `Projection`. -/
structure Projection where
  property : Option PropertyReference
deriving DecidableEq, Repr

/-- Wire `property_order::Direction` with its protobuf discriminants. -/
inductive Direction where
  | Unspecified : Direction
  | Ascending : Direction
  | Descending : Direction
deriving DecidableEq, Repr

def Direction.toi32 : Direction → Int
  | .Unspecified => 0
  | .Ascending => 1
  | .Descending => 2

/-- Wire `PropertyOrder` (`direction` is the enum as `i32`). -/
structure PropertyOrder where
  property : Option PropertyReference
  direction : Int
deriving DecidableEq, Repr

/-- Wire `composite_filter::Operator` with its protobuf discriminants. -/
inductive CompositeOperator where
  | Unspecified : CompositeOperator
  | And : CompositeOperator
deriving DecidableEq, Repr

def CompositeOperator.toi32 : CompositeOperator → Int
  | .Unspecified => 0
  | .And => 1

/-- Wire `property_filter::Operator` with its protobuf discriminants. -/
inductive PropertyOperator where
  | Unspecified : PropertyOperator
  | LessThan : PropertyOperator
  | LessThanOrEqual : PropertyOperator
  | GreaterThan : PropertyOperator
  | GreaterThanOrEqual : PropertyOperator
  | Equal : PropertyOperator
  | In : PropertyOperator
  | NotEqual : PropertyOperator
  | HasAncestor : PropertyOperator
  | NotIn : PropertyOperator
deriving DecidableEq, Repr

def PropertyOperator.toi32 : PropertyOperator → Int
  | .Unspecified => 0
  | .LessThan => 1
  | .LessThanOrEqual => 2
  | .GreaterThan => 3
  | .GreaterThanOrEqual => 4
  | .Equal => 5
  | .In => 6
  | .NotEqual => 9
  | .HasAncestor => 11
  | .NotIn => 13

mutual
/-- Wire `Filter` (oneof holder). -/
inductive Filter where
  | mk (filter_type : Option FilterType) : Filter

/-- Wire `filter::FilterType`. -/
inductive FilterType where
  | CompositeFilter (f : CompositeFilter) : FilterType
  | PropertyFilter (f : PropertyFilter) : FilterType

/-- Wire `CompositeFilter` (`op` is the enum as `i32`). -/
inductive CompositeFilter where
  | mk (op : Int) (filters : List Filter) : CompositeFilter

/-- Wire `PropertyFilter` (`op` is the enum as `i32`). -/
inductive PropertyFilter where
  | mk (property : Option PropertyReference) (op : Int)
      (value : Option Value) : PropertyFilter
end

def Filter.filter_type : Filter → Option FilterType
  | .mk ft => ft

def CompositeFilter.op : CompositeFilter → Int
  | .mk o _ => o

def CompositeFilter.filters : CompositeFilter → List Filter
  | .mk _ fs => fs

def PropertyFilter.property : PropertyFilter → Option PropertyReference
  | .mk p _ _ => p

def PropertyFilter.op : PropertyFilter → Int
  | .mk _ o _ => o

def PropertyFilter.value : PropertyFilter → Option Value
  | .mk _ _ v => v

/-- Wire `Query`. -/
structure Query where
  projection : List Projection
  kind : List KindExpression
  filter : Option Filter
  order : List PropertyOrder
  distinct_on : List PropertyReference
  start_cursor : List Nat
  end_cursor : List Nat
  offset : Int
  limit : Option Int

/-- Wire `GqlQueryParameter` (oneof `value` / `cursor`). -/
inductive GqlQueryParameter where
  | Value (v : Value) : GqlQueryParameter
  | Cursor (c : List Nat) : GqlQueryParameter

/-- Wire `GqlQuery`. -/
structure GqlQuery where
  query_string : String
  allow_literals : Bool
  named_bindings : List (String × GqlQueryParameter)
  positional_bindings : List GqlQueryParameter

/-- Wire `read_options::ReadConsistency` with its protobuf
discriminants. -/
inductive ReadConsistency where
  | Unspecified : ReadConsistency
  | Strong : ReadConsistency
  | Eventual : ReadConsistency
deriving DecidableEq, Repr

def ReadConsistency.toi32 : ReadConsistency → Int
  | .Unspecified => 0
  | .Strong => 1
  | .Eventual => 2

/-- Wire `read_options::ConsistencyType`. -/
inductive ConsistencyType where
  | ReadConsistency (v : Int) : ConsistencyType
  | Transaction (v : List Nat) : ConsistencyType
deriving DecidableEq, Repr

/-- Wire `ReadOptions`. -/
structure ReadOptions where
  consistency_type : Option ConsistencyType
deriving DecidableEq, Repr

/-- Wire `run_query_request::QueryType`. -/
inductive QueryType where
  | Query (q : Query) : QueryType
  | GqlQuery (q : GqlQuery) : QueryType

/-- Wire `RunQueryRequest`. -/
structure RunQueryRequest where
  project_id : String
  partition_id : Option PartitionId
  read_options : Option ReadOptions
  query_type : Option QueryType

/-- Wire `EntityResult`. -/
structure EntityResult where
  entity : Option Entity
  version : Int
  update_time : Option Timestamp
  cursor : List Nat

/-- Wire `query_result_batch::MoreResultsType` with its protobuf
discriminants. -/
inductive MoreResultsType where
  | Unspecified : MoreResultsType
  | NotFinished : MoreResultsType
  | MoreResultsAfterLimit : MoreResultsType
  | MoreResultsAfterCursor : MoreResultsType
  | NoMoreResults : MoreResultsType
deriving DecidableEq, Repr

def MoreResultsType.toi32 : MoreResultsType → Int
  | .Unspecified => 0
  | .NotFinished => 1
  | .MoreResultsAfterLimit => 2
  | .MoreResultsAfterCursor => 4
  | .NoMoreResults => 3

/-- Wire `QueryResultBatch` (`more_results` is the enum as `i32`). -/
structure QueryResultBatch where
  skipped_results : Int
  skipped_cursor : List Nat
  entity_result_type : Int
  entity_results : List EntityResult
  end_cursor : List Nat
  more_results : Int
  snapshot_version : Int
  read_time : Option Timestamp

/-- Wire `RunQueryResponse`. -/
structure RunQueryResponse where
  batch : Option QueryResultBatch
  query : Option Query

/-- Wire `LookupRequest`. -/
structure LookupRequest where
  project_id : String
  read_options : Option ReadOptions
  keys : List Key

/-- Wire `LookupResponse`. -/
structure LookupResponse where
  found : List EntityResult
  missing : List EntityResult
  deferred : List Key

/-- Wire `mutation::Operation`. -/
inductive Operation where
  | Insert (e : Entity) : Operation
  | Update (e : Entity) : Operation
  | Upsert (e : Entity) : Operation
  | Delete (k : Key) : Operation

/-- Wire `mutation::ConflictDetectionStrategy`. -/
inductive ConflictDetectionStrategy where
  | BaseVersion (v : Int) : ConflictDetectionStrategy
deriving DecidableEq, Repr

/-- Wire `Mutation`. -/
structure Mutation where
  operation : Option Operation
  conflict_detection_strategy : Option ConflictDetectionStrategy

/-- Wire `commit_request::Mode` with its protobuf discriminants. -/
inductive CommitMode where
  | Unspecified : CommitMode
  | Transactional : CommitMode
  | NonTransactional : CommitMode
deriving DecidableEq, Repr

def CommitMode.toi32 : CommitMode → Int
  | .Unspecified => 0
  | .Transactional => 1
  | .NonTransactional => 2

/-- Wire `commit_request::TransactionSelector`. -/
inductive TransactionSelector where
  | Transaction (v : List Nat) : TransactionSelector
deriving DecidableEq, Repr

/-- Wire `CommitRequest`. -/
structure CommitRequest where
  project_id : String
  mode : Int
  mutations : List Mutation
  transaction_selector : Option TransactionSelector

/-- Wire `MutationResult`. -/
structure MutationResult where
  key : Option Key
  version : Int
  conflict_detected : Bool
deriving DecidableEq, Repr

/-- Wire `CommitResponse`. -/
structure CommitResponse where
  mutation_results : List MutationResult
  index_updates : Int
deriving DecidableEq, Repr

end Datastore.api

namespace Datastore

/-- The wire path element emitted for one local `Key` node by the walk in
`convert_key`: the node's kind, and its identifier variant (`Incomplete`
→ unset, `IntID` → numeric `Id`, `StringID` → `Name`). -/
def pathElementOf (k : Key) : api.PathElement :=
  { kind := k.get_kind
    id_type :=
      match k.get_id with
      | KeyID.Incomplete => none
      | KeyID.IntID id => some (api.IdType.Id id)
      | KeyID.StringID id => some (api.IdType.Name id) }

/-- The `while let Some(current) = key` loop of `convert_key`: pushes one
wire path element per node, walking parent links from the leaf to the
root (so the produced list is ordered leaf first). -/
def keyPathRev : Key → List api.PathElement
  | Key.root kind id nspace => [pathElementOf (Key.root kind id nspace)]
  | Key.child kind id nspace parent =>
      pathElementOf (Key.child kind id nspace parent) :: keyPathRev parent

/-- `convert_key` (client.rs): partition from the client's project name
and the leaf key's namespace (empty when absent); path from the
leaf-to-root walk, reversed to root-first wire order. -/
def convert_key (project_name : String) (key : Key) : api.Key :=
  { partition_id := some
      { project_id := project_name
        namespace_id := (key.get_namespace).getD "" }
    path := (keyPathRev key).reverse }

/-- The `as i32` cast of a `u32` sub-second nanosecond count in
`convert_value`. -/
def i32_of_u32 (n : Nat) : Int :=
  if n % 2 ^ 32 < 2 ^ 31 then ((n % 2 ^ 32 : Nat) : Int)
  else ((n % 2 ^ 32 : Nat) : Int) - 2 ^ 32

mutual
/-- `convert_value` (client.rs).  The Rust function initialises
`exclude_from_indexes = false`, computes the wire `value_type` by the
exhaustive match (the `IndexedValue` arm overwriting the flag), and wraps
the result as `api::Value { meaning: 0, exclude_from_indexes,
value_type: Some(value_type) }`; here the match is `convertValuePair`,
returning the (flag, value_type) pair. -/
def convert_value (project_name : String) (value : Value) : api.Value :=
  api.Value.mk 0 (convertValuePair project_name value).1
    (some (convertValuePair project_name value).2)
termination_by (sizeOf value, 1)

/-- The exhaustive `match` of `convert_value`, paired with the final
`exclude_from_indexes` flag.  The `IndexedValue` arm's
`convert_value(..).value_type.unwrap()` is the second component of the
recursive pair: `convert_value` always wraps that component in `Some`,
so the unwrap cannot fail (as the source comments). -/
def convertValuePair (project_name : String) : Value → Bool × api.ValueType
  | Value.BooleanValue val => (false, api.ValueType.BooleanValue val)
  | Value.IntegerValue val => (false, api.ValueType.IntegerValue val)
  | Value.DoubleValue val => (false, api.ValueType.DoubleValue val)
  | Value.TimestampValue val =>
      (false, api.ValueType.TimestampValue
        { seconds := val.seconds, nanos := i32_of_u32 val.subsecNanos })
  | Value.KeyValue key =>
      (false, api.ValueType.KeyValue (convert_key project_name key))
  | Value.StringValue val => (false, api.ValueType.StringValue val)
  | Value.IndexedValue val flag =>
      (!flag, (convertValuePair project_name val).2)
  | Value.BlobValue val => (false, api.ValueType.BlobValue val)
  | Value.GeoPointValue latitude longitude =>
      (false, api.ValueType.GeoPointValue
        { latitude := latitude, longitude := longitude })
  | Value.EntityValue properties =>
      (false, api.ValueType.EntityValue
        (api.Entity.mk none (convertProperties project_name properties)))
  | Value.ArrayValue values =>
      (false, api.ValueType.ArrayValue
        (api.ArrayValue.mk (convertValues project_name values)))
termination_by v => (sizeOf v, 0)

/-- The `properties.into_iter().map(|(k, v)| (k, convert_value(..., v)))`
of the `EntityValue` arm (and of `convert_entity`). -/
def convertProperties (project_name : String) :
    List (String × Value) → List (String × api.Value)
  | [] => []
  | (k, v) :: rest =>
      (k, convert_value project_name v) :: convertProperties project_name rest
termination_by l => (sizeOf l, 0)

/-- The `values.into_iter().map(|value| convert_value(..., value))` of
the `ArrayValue` arm. -/
def convertValues (project_name : String) : List Value → List api.Value
  | [] => []
  | v :: rest => convert_value project_name v :: convertValues project_name rest
termination_by l => (sizeOf l, 0)
end

/-- `convert_entity` (client.rs): converts the key, requires the entity's
properties to be a `Value::EntityValue` and converts them pointwise;
`none` models the `panic!("unexpected non-entity datastore value")` on
any other variant. -/
def convert_entity (project_name : String) (entity : Entity) :
    Option api.Entity :=
  let key := convert_key project_name entity.key
  match entity.properties with
  | Value.EntityValue properties =>
      some (api.Entity.mk (some key) (convertProperties project_name properties))
  | _ => none

/-- `convert_filter` (client.rs): an empty filter list yields no wire
filter; a non-empty list yields one `PropertyFilter` per local filter
(property name, mapped operator, converted value), wrapped in a single
Boolean-AND `CompositeFilter`. -/
def convert_filter (project_name : String) (filters : List Filter) :
    Option api.Filter :=
  if !filters.isEmpty then
    let fs := filters.map (fun filter =>
      let t : String × api.PropertyOperator × Value :=
        match filter with
        | Filter.Equal name value => (name, api.PropertyOperator.Equal, value)
        | Filter.GreaterThan name value =>
            (name, api.PropertyOperator.GreaterThan, value)
        | Filter.LesserThan name value =>
            (name, api.PropertyOperator.LessThan, value)
        | Filter.GreaterThanOrEqual name value =>
            (name, api.PropertyOperator.GreaterThanOrEqual, value)
        | Filter.LesserThanEqual name value =>
            (name, api.PropertyOperator.LessThanOrEqual, value)
        | Filter.NotEqual name value => (name, api.PropertyOperator.NotEqual, value)
        | Filter.In name value => (name, api.PropertyOperator.In, value)
        | Filter.NotIn name value => (name, api.PropertyOperator.NotIn, value)
      api.Filter.mk (some (api.FilterType.PropertyFilter
        (api.PropertyFilter.mk (some { name := t.1 }) t.2.1.toi32
          (some (convert_value project_name t.2.2))))))
    some (api.Filter.mk (some (api.FilterType.CompositeFilter
      (api.CompositeFilter.mk api.CompositeOperator.And.toi32 fs))))
  else
    none

/-- Modelled from the spec: the identifier half of the wire→local key
conversion (`Key::from(api::Key)` lives in
`src/google-cloud/src/datastore/key.rs`, which is not among the reviewed
sources).  Spec §8 requires the round trip to reproduce "the same path
order and identifier variant", so each wire identifier maps back to the
local variant it came from: unset → `Incomplete`, numeric → `IntID`,
name → `StringID`. -/
def keyIDFromWire : Option api.IdType → KeyID
  | none => KeyID.Incomplete
  | some (api.IdType.Id id) => KeyID.IntID id
  | some (api.IdType.Name name) => KeyID.StringID name

/-- Modelled from the spec: the path half of `Key::from(api::Key)`
(key.rs, not among the reviewed sources).  The wire path is ordered root
first (spec §4.1), so the local parent chain is rebuilt by folding the
remaining elements over the root node; the partition namespace (empty
string meaning absent, mirroring `unwrap_or_default` of the forward
direction) is attached to every node of the chain, which all live in the
same partition.  An empty wire path has no local counterpart (spec §3:
"a Key path is never empty"): `none`, modelling a panicking
conversion. -/
def keyFromWirePath (nspace : Option String) :
    List api.PathElement → Option Key
  | [] => none
  | e :: rest =>
      some (rest.foldl
        (fun parent el => Key.child el.kind (keyIDFromWire el.id_type) nspace parent)
        (Key.root e.kind (keyIDFromWire e.id_type) nspace))

/-- Modelled from the spec: `Key::from(api::Key)` (key.rs, not among the
reviewed sources), assembled from the partition's namespace and the path
walk. -/
def Key.fromWire (k : api.Key) : Option Key :=
  let nspace :=
    match k.partition_id with
    | some pid => if pid.namespace_id = "" then none else some pid.namespace_id
    | none => none
  keyFromWirePath nspace k.path

mutual
/-- Modelled from the spec: the wire→local value conversion
(`Value::from(api::Value)` in src/google-cloud/src/datastore/value.rs,
not among the reviewed sources).  Spec §4.1 describes the value mapping
as "direct tag-to-tag" with timestamps recombined from seconds plus
nanoseconds, and the indexed wrapper as non-recoverable, so
`exclude_from_indexes` and `meaning` are dropped.  A wire value with no
`value_type` set, or a `NullValue` (the local `Value` of `client.rs` has
no null variant), has no local counterpart: `none`, modelling a failing
or panicking conversion. -/
def valueFromWire : api.Value → Option Value
  | api.Value.mk _ _ none => none
  | api.Value.mk _ _ (some vt) => valueTypeFromWire vt

/-- Modelled from the spec: tag-to-tag back-mapping of the wire value
oneof; part of `valueFromWire`. -/
def valueTypeFromWire : api.ValueType → Option Value
  | api.ValueType.NullValue _ => none
  | api.ValueType.BooleanValue v => some (Value.BooleanValue v)
  | api.ValueType.IntegerValue v => some (Value.IntegerValue v)
  | api.ValueType.DoubleValue v => some (Value.DoubleValue v)
  | api.ValueType.TimestampValue v =>
      some (Value.TimestampValue { seconds := v.seconds, subsecNanos := v.nanos.toNat })
  | api.ValueType.KeyValue v => (Key.fromWire v).map Value.KeyValue
  | api.ValueType.StringValue v => some (Value.StringValue v)
  | api.ValueType.BlobValue v => some (Value.BlobValue v)
  | api.ValueType.GeoPointValue v =>
      some (Value.GeoPointValue v.latitude v.longitude)
  | api.ValueType.EntityValue (api.Entity.mk _ props) =>
      (propertiesFromWire props).map Value.EntityValue
  | api.ValueType.ArrayValue (api.ArrayValue.mk vs) =>
      (valuesFromWire vs).map Value.ArrayValue

/-- Modelled from the spec: pointwise back-conversion of a wire property
map; part of `valueFromWire`. -/
def propertiesFromWire :
    List (String × api.Value) → Option (List (String × Value))
  | [] => some []
  | (k, v) :: rest =>
      match valueFromWire v, propertiesFromWire rest with
      | some lv, some lrest => some ((k, lv) :: lrest)
      | _, _ => none

/-- Modelled from the spec: pointwise back-conversion of a wire value
list; part of `valueFromWire`. -/
def valuesFromWire : List api.Value → Option (List Value)
  | [] => some []
  | v :: rest =>
      match valueFromWire v, valuesFromWire rest with
      | some lv, some lrest => some (lv :: lrest)
      | _, _ => none
end

/-- Modelled from the spec: `Entity::from(api::Entity)`
(src/google-cloud/src/datastore/entity.rs, not among the reviewed
sources).  The wire key (required on `found`/query results) back-converts
to the local key and the wire property map becomes the local
`Value::EntityValue` (the shape `convert_entity` expects).  A missing
key, an empty key path, or an unconvertible property value has no local
counterpart: `none`, modelling a panicking conversion. -/
def Entity.fromWire (e : api.Entity) : Option Entity :=
  match e with
  | api.Entity.mk none _ => none
  | api.Entity.mk (some wk) props =>
      match Key.fromWire wk, propertiesFromWire props with
      | some k, some ps => some { key := k, properties := Value.EntityValue ps }
      | _, _ => none

end Datastore

namespace Datastore

/-- Short-circuiting option-valued map: the model of an iterator `map`
collected into `Result`/`Option` (`collect::<Result<Vec<_>, _>>` and of
mapped iterators whose element conversion may panic). -/
def collectMap {α β : Type} (f : α → Option β) : List α → Option (List β)
  | [] => some []
  | a :: rest =>
      match f a, collectMap f rest with
      | some b, some bs => some (b :: bs)
      | _, _ => none

/-- One RPC exchange as the client observes it: a response, or a
transport/authentication error that the surrounding `?` turns into a
recoverable `Error` for the caller. -/
inductive RpcOutcome (α : Type) where
  | ok (response : α) : RpcOutcome α
  | fail : RpcOutcome α

/-- The outcome of one client operation: a returned value, a recoverable
`Error`, a process-terminating panic (`panic!` or `unwrap` on `None`), or
`hung` — the operation is blocked on an RPC for which the modelled
response sequence supplies nothing (no timeout exists above the
transport). -/
inductive CallResult (α : Type) where
  | ok (value : α) : CallResult α
  | err : CallResult α
  | panicked : CallResult α
  | hung : CallResult α
deriving DecidableEq

/-- `HashMap` lookup on the association-list model: the value of the
first entry with the given key. -/
def hmLookup (m : List (Key × Value)) (k : Key) : Option Value :=
  (m.find? (fun e => decide (e.1 = k))).map Prod.snd

/-- `HashMap` entry removal on the association-list model. -/
def hmErase (m : List (Key × Value)) (k : Key) : List (Key × Value) :=
  m.filter (fun e => !decide (e.1 = k))

/-- `HashMap` insert-replace on the association-list model. -/
def hmInsert (m : List (Key × Value)) (k : Key) (v : Value) :
    List (Key × Value) :=
  hmErase m k ++ [(k, v)]

/-- `HashMap::extend`: inserts every entry in order, replacing existing
keys. -/
def hmExtend (m : List (Key × Value)) (es : List (Key × Value)) :
    List (Key × Value) :=
  es.foldl (fun acc e => hmInsert acc e.1 e.2) m

/-- The `found.extend(...)` payload of one lookup iteration of
`Client::get_all`: every found result's entity
(`val.entity.unwrap()`), converted by `Entity::from` and keyed as
`(entity.key, entity.properties)`; `none` when any unwrap or conversion
would panic. -/
def foundEntries (found : List api.EntityResult) :
    Option (List (Key × Value)) :=
  collectMap (fun er =>
    (er.entity.bind Entity.fromWire).map (fun e => (e.key, e.properties))) found

/-- The `api::LookupRequest` issued by one iteration of the lookup loop:
the pending keys, the project id, no read options. -/
def lookupRequestOf (project_name : String) (keys : List api.Key) :
    api.LookupRequest :=
  { keys := keys, project_id := project_name, read_options := none }

/-- The `while !keys.is_empty()` loop of `Client::get_all`: issues a
lookup for the pending keys, merges the found entities into the
accumulated map, and continues with the response's deferred keys.
Returns the issued requests together with the outcome. -/
def lookupLoop (project_name : String)
    (responses : List (RpcOutcome api.LookupResponse))
    (keys : List api.Key) (found : List (Key × Value)) :
    List api.LookupRequest × CallResult (List (Key × Value)) :=
  if keys.isEmpty then ([], CallResult.ok found)
  else
    match responses with
    | [] => ([lookupRequestOf project_name keys], CallResult.hung)
    | RpcOutcome.fail :: _ =>
        ([lookupRequestOf project_name keys], CallResult.err)
    | RpcOutcome.ok response :: rest =>
        match foundEntries response.found with
        | none => ([lookupRequestOf project_name keys], CallResult.panicked)
        | some entries =>
            let next := lookupLoop project_name rest response.deferred
              (hmExtend found entries)
            (lookupRequestOf project_name keys :: next.1, next.2)

/-- `og_keys.into_iter().flat_map(|key| found.remove(key.borrow()))`:
walks the original keys in order, removing each from the found map as it
goes; a key already removed (a duplicate) or never found contributes
nothing. -/
def removeAll : List Key → List (Key × Value) → List Value
  | [], _ => []
  | k :: rest, found =>
      match hmLookup found k with
      | some v => v :: removeAll rest (hmErase found k)
      | none => removeAll rest (hmErase found k)

/-- `Client::get_all`, generic over the caller's `FromValue` conversion
(`fromValue`; `none` models a conversion error surfaced through `?` as a
recoverable error).  Returns the issued lookup requests and the
outcome. -/
def Client.get_all {α : Type} (fromValue : Value → Option α)
    (project_name : String)
    (responses : List (RpcOutcome api.LookupResponse))
    (og_keys : List Key) :
    List api.LookupRequest × CallResult (List α) :=
  let keys := og_keys.map (convert_key project_name)
  let r := lookupLoop project_name responses keys []
  (r.1,
    match r.2 with
    | CallResult.ok found =>
        match collectMap fromValue (removeAll og_keys found) with
        | some values => CallResult.ok values
        | none => CallResult.err
    | CallResult.err => CallResult.err
    | CallResult.panicked => CallResult.panicked
    | CallResult.hung => CallResult.hung)

/-- `Client::get`: `get_all` over the single borrowed key (with the
identity `FromValue` of `Value` as intermediate element type), then
`results.into_iter().next().map(T::from_value).transpose()?`. -/
def Client.get {α : Type} (fromValue : Value → Option α)
    (project_name : String)
    (responses : List (RpcOutcome api.LookupResponse)) (key : Key) :
    List api.LookupRequest × CallResult (Option α) :=
  let r := Client.get_all some project_name responses [key]
  (r.1,
    match r.2 with
    | CallResult.ok results =>
        match results.head? with
        | none => CallResult.ok none
        | some v =>
            match fromValue v with
            | some a => CallResult.ok (some a)
            | none => CallResult.err
    | CallResult.err => CallResult.err
    | CallResult.panicked => CallResult.panicked
    | CallResult.hung => CallResult.hung)

/-- `Client::put_all`, generic over the caller's `IntoEntity` conversions
(`intoEntity`; `none` models a conversion error surfaced through `?`).
Each entity with an incomplete key becomes an `Insert` mutation,
otherwise an `Upsert`; all mutations are committed non-transactionally.
Returns the commit request (when one was assembled) and the outcome:
the optional server-allocated key per mutation result. -/
def Client.put_all {β : Type} (intoEntity : β → Option Entity)
    (project_name : String) (response : RpcOutcome api.CommitResponse)
    (items : List β) :
    Option api.CommitRequest × CallResult (List (Option Key)) :=
  match collectMap intoEntity items with
  | none => (none, CallResult.err)
  | some entities =>
      match collectMap (fun entity =>
          let is_incomplete := entity.key.is_incomplete
          (convert_entity project_name entity).map (fun e =>
            ({ operation := some (if is_incomplete then api.Operation.Insert e
                  else api.Operation.Upsert e)
               conflict_detection_strategy := none } : api.Mutation))) entities with
      | none => (none, CallResult.panicked)
      | some mutations =>
          let request : api.CommitRequest :=
            { mutations := mutations
              mode := api.CommitMode.NonTransactional.toi32
              transaction_selector := none
              project_id := project_name }
          match response with
          | RpcOutcome.fail => (some request, CallResult.err)
          | RpcOutcome.ok resp =>
              match collectMap (fun result =>
                  match result.key with
                  | none => some none
                  | some k => (Key.fromWire k).map some) resp.mutation_results with
              | none => (some request, CallResult.panicked)
              | some keys => (some request, CallResult.ok keys)

/-- `Client::delete_all`: one `Delete` mutation per converted key,
committed non-transactionally. -/
def Client.delete_all (project_name : String)
    (response : RpcOutcome api.CommitResponse) (keys : List Key) :
    api.CommitRequest × CallResult Unit :=
  let mutations := keys.map (fun key =>
    ({ operation := some (api.Operation.Delete (convert_key project_name key))
       conflict_detection_strategy := none } : api.Mutation))
  let request : api.CommitRequest :=
    { mutations := mutations
      mode := api.CommitMode.NonTransactional.toi32
      transaction_selector := none
      project_id := project_name }
  match response with
  | RpcOutcome.fail => (request, CallResult.err)
  | RpcOutcome.ok _ => (request, CallResult.ok ())

/-- The `api::RunQueryRequest` assembled by one iteration of
`Client::query` from the current query value and the current cursor. -/
def mkRunQueryRequest (project_name : String) (cur_query : Query)
    (cursor : List Nat) : api.RunQueryRequest :=
  let projection := cur_query.projections.map (fun name =>
    ({ property := some { name := name } } : api.Projection))
  let filter := convert_filter project_name cur_query.filters
  let order := cur_query.ordering.map (fun order =>
    match order with
    | Order.Asc name =>
        ({ property := some { name := name }
           direction := api.Direction.Ascending.toi32 } : api.PropertyOrder)
    | Order.Desc name =>
        ({ property := some { name := name }
           direction := api.Direction.Descending.toi32 } : api.PropertyOrder))
  let api_query : api.Query :=
    { kind := [{ name := cur_query.kind }]
      projection := projection
      filter := filter
      order := order
      offset := cur_query.offset
      limit := cur_query.limit
      start_cursor := cursor
      end_cursor := []
      distinct_on := cur_query.distinct_on.map (fun name => { name := name }) }
  { partition_id := some
      { project_id := project_name
        namespace_id := cur_query.nspace.getD "" }
    query_type := some (api.QueryType.Query api_query)
    read_options := some
      { consistency_type := some (api.ConsistencyType.ReadConsistency
          (if cur_query.eventual then api.ReadConsistency.Eventual.toi32
           else api.ReadConsistency.Strong.toi32)) }
    project_id := project_name }

/-- The `output.extend(results.entity_results.into_iter().map(|el|
Entity::from(el.entity.unwrap())))` payload of one query iteration;
`none` when any unwrap or conversion would panic. -/
def batchEntities (entity_results : List api.EntityResult) :
    Option (List Entity) :=
  collectMap (fun el => el.entity.bind Entity.fromWire) entity_results

/-- The pagination `loop` of `Client::query`: each iteration issues one
request built from the current query value and cursor, appends the
batch's converted entities to the output, stops (returning the output)
on any `more_results` state other than `NOT_FINISHED`, and otherwise
continues from a fresh clone of the original query with the batch's end
cursor.  Returns the issued requests together with the outcome. -/
def queryLoop (project_name : String) (query : Query)
    (responses : List (RpcOutcome api.RunQueryResponse))
    (cur_query : Query) (cursor : List Nat) (output : List Entity) :
    List api.RunQueryRequest × CallResult (List Entity) :=
  let request := mkRunQueryRequest project_name cur_query cursor
  match responses with
  | [] => ([request], CallResult.hung)
  | RpcOutcome.fail :: _ => ([request], CallResult.err)
  | RpcOutcome.ok response :: rest =>
      match response.batch with
      | none => ([request], CallResult.panicked)
      | some results =>
          match batchEntities results.entity_results with
          | none => ([request], CallResult.panicked)
          | some ents =>
              if results.more_results ≠ api.MoreResultsType.NotFinished.toi32 then
                ([request], CallResult.ok (output ++ ents))
              else
                let next := queryLoop project_name query rest query
                  results.end_cursor (output ++ ents)
                (request :: next.1, next.2)

/-- `Client::query`: runs the pagination loop starting from a clone of
the caller's query and an empty cursor. -/
def Client.query (project_name : String)
    (responses : List (RpcOutcome api.RunQueryResponse)) (query : Query) :
    List api.RunQueryRequest × CallResult (List Entity) :=
  queryLoop project_name query responses query [] []

end Datastore

namespace Datastore

/-- Spec-side view of a local key: its path as the root-to-leaf sequence
of (kind, identifier) pairs ("ordered path of (kind, identifier) pairs",
spec §3). -/
def Key.pathPairs : Key → List (String × KeyID)
  | Key.root kind id _ => [(kind, id)]
  | Key.child kind id _ parent => Key.pathPairs parent ++ [(kind, id)]

/-- The wire identifier variant of a local identifier: unset for
`Incomplete`, numeric id for `IntID`, name for `StringID`. -/
def wireIdOf : KeyID → Option api.IdType
  | KeyID.Incomplete => none
  | KeyID.IntID id => some (api.IdType.Id id)
  | KeyID.StringID id => some (api.IdType.Name id)

/-- A local identifier is complete when it carries a numeric id or a
name. -/
def KeyID.isComplete : KeyID → Bool
  | KeyID.Incomplete => false
  | KeyID.IntID _ => true
  | KeyID.StringID _ => true

/-- Every node of the key's chain (the key itself included) is
complete. -/
def Key.allComplete : Key → Bool
  | Key.root _ id _ => id.isComplete
  | Key.child _ id _ parent => id.isComplete && parent.allComplete

/-- Every strict ancestor of the key (its parent chain) is complete —
the spec's invariant "every non-terminal path element must be
complete". -/
def Key.ancestorsComplete (k : Key) : Bool :=
  match k.get_parent with
  | none => true
  | some parent => parent.allComplete

theorem pathPairs_ne_nil (k : Key) : Key.pathPairs k ≠ [] := by
  cases k <;> simp [Key.pathPairs]

theorem keyPathRev_eq (k : Key) :
    keyPathRev k = ((Key.pathPairs k).map
      (fun pr => ({ kind := pr.1, id_type := wireIdOf pr.2 } : api.PathElement))).reverse := by
  induction k with
  | root kind id nspace =>
      cases id <;>
        simp [keyPathRev, Key.pathPairs, pathElementOf, wireIdOf, Key.get_kind, Key.get_id]
  | child kind id nspace parent ih =>
      cases id <;>
        simp [keyPathRev, Key.pathPairs, pathElementOf, wireIdOf, Key.get_kind, Key.get_id,
          ih, List.reverse_append]

theorem convert_key_path (project_name : String) (key : Key) :
    (convert_key project_name key).path = (Key.pathPairs key).map
      (fun pr => ({ kind := pr.1, id_type := wireIdOf pr.2 } : api.PathElement)) := by
  simp [convert_key, keyPathRev_eq]

/-- C4: for every local key, `convert_key` emits one wire path element
per node of the parent chain — carrying that node's kind and identifier
variant (unset for `Incomplete`, numeric id for `IntID`, name for
`StringID`) — ordered root first, leaf last, and attaches a partition
with the client's project id and the leaf key's namespace (empty when
absent).  Additionally, the spec's scenario: the key
`{kind: "A", id: incomplete}` with parent `{kind: "Root", name: "r1"}`
converts to the wire path `[{Root, name r1}, {A, unset}]`. -/
theorem convert_key_root_first (project_name : String) (key : Key) :
    (convert_key project_name key =
      { partition_id := some { project_id := project_name
                               namespace_id := (key.get_namespace).getD "" }
        path := (Key.pathPairs key).map
          (fun pr => { kind := pr.1, id_type := wireIdOf pr.2 }) }) ∧
    convert_key "proj"
        (Key.child "A" KeyID.Incomplete none
          (Key.root "Root" (KeyID.StringID "r1") none)) =
      { partition_id := some { project_id := "proj", namespace_id := "" }
        path := [{ kind := "Root", id_type := some (api.IdType.Name "r1") },
                 { kind := "A", id_type := none }] } := by
  constructor
  · have hp := convert_key_path project_name key
    simp only [convert_key] at hp ⊢
    rw [hp]
  · simp [convert_key, keyPathRev, pathElementOf, Key.get_kind, Key.get_id,
      Key.get_namespace]

theorem keyIDFromWire_wireIdOf (id : KeyID) :
    keyIDFromWire (wireIdOf id) = id := by
  cases id <;> rfl

theorem pathPairs_foldl (nspace : Option String) (els : List api.PathElement) :
    ∀ k : Key,
      Key.pathPairs (els.foldl
          (fun parent el => Key.child el.kind (keyIDFromWire el.id_type) nspace parent) k)
        = Key.pathPairs k ++ els.map (fun el => (el.kind, keyIDFromWire el.id_type)) := by
  induction els with
  | nil => intro k; simp
  | cons e rest ih =>
      intro k
      simp only [List.foldl_cons, ih, Key.pathPairs, List.map_cons]
      simp [List.append_assoc]

theorem keyFromWirePath_pathPairs (nspace : Option String)
    (ps : List (String × KeyID)) (hne : ps ≠ []) :
    (keyFromWirePath nspace (ps.map
        (fun pr => ({ kind := pr.1, id_type := wireIdOf pr.2 } : api.PathElement)))).map
      Key.pathPairs = some ps := by
  cases ps with
  | nil => exact absurd rfl hne
  | cons p0 rest =>
      simp only [List.map_cons, keyFromWirePath, pathPairs_foldl, Key.pathPairs,
        keyIDFromWire_wireIdOf, List.map_map, Option.map_some']
      have hid : ∀ pr ∈ rest,
          ((fun el => (el.kind, keyIDFromWire el.id_type)) ∘
            fun pr => ({ kind := pr.1, id_type := wireIdOf pr.2 } : api.PathElement)) pr
            = pr := by
        intro pr _
        simp [Function.comp, keyIDFromWire_wireIdOf]
      rw [List.map_congr_left hid]
      simp

/-- C9: for every local key (in particular every key with a non-empty,
ancestor-complete path), converting to the wire form with `convert_key`
and back with the (spec-modelled) wire→local key conversion reproduces
the same root-to-leaf sequence of (kind, identifier) pairs, each
identifier of the same variant. -/
theorem key_roundtrip (project_name : String) (key : Key)
    (_h : key.ancestorsComplete = true) :
    (Key.fromWire (convert_key project_name key)).map Key.pathPairs
      = some (Key.pathPairs key) := by
  have hpath := convert_key_path project_name key
  simp only [Key.fromWire, convert_key] at hpath ⊢
  rw [hpath]
  exact keyFromWirePath_pathPairs _ _ (pathPairs_ne_nil key)

/-- Witness for `key_roundtrip`: the spec's scenario key (incomplete
leaf, complete ancestor) satisfies the hypothesis and round-trips. -/
theorem key_roundtrip_witness :
    (Key.child "A" KeyID.Incomplete none
        (Key.root "Root" (KeyID.StringID "r1") none)).ancestorsComplete = true ∧
    (Key.fromWire (convert_key "proj"
        (Key.child "A" KeyID.Incomplete none
          (Key.root "Root" (KeyID.StringID "r1") none)))).map Key.pathPairs
      = some (Key.pathPairs
          (Key.child "A" KeyID.Incomplete none
            (Key.root "Root" (KeyID.StringID "r1") none))) :=
  ⟨rfl, key_roundtrip "proj" _ rfl⟩

end Datastore

namespace Datastore

theorem collectMap_some_id {α : Type} (l : List α) : collectMap some l = some l := by
  induction l with
  | nil => rfl
  | cons a rest ih => simp [collectMap, ih]

theorem collectMap_isSome_of_forall {α β : Type} (f : α → Option β) (l : List α)
    (h : ∀ a ∈ l, (f a).isSome) : ∃ l2, collectMap f l = some l2 := by
  induction l with
  | nil => exact ⟨[], rfl⟩
  | cons a rest ih =>
      obtain ⟨b, hb⟩ := Option.isSome_iff_exists.mp (h a (by simp))
      obtain ⟨l2, hl2⟩ := ih (fun x hx => h x (by simp [hx]))
      exact ⟨b :: l2, by simp [collectMap, hb, hl2]⟩

theorem collectMap_length {α β : Type} (f : α → Option β) :
    ∀ (l : List α) (l2 : List β), collectMap f l = some l2 → l2.length = l.length := by
  intro l
  induction l with
  | nil => intro l2 h; simp [collectMap] at h; simp [h.symm]
  | cons a rest ih =>
      intro l2 h
      simp only [collectMap] at h
      cases hfa : f a with
      | none => rw [hfa] at h; simp at h
      | some b =>
          rw [hfa] at h
          cases hrest : collectMap f rest with
          | none => rw [hrest] at h; simp at h
          | some bs =>
              rw [hrest] at h
              simp at h
              subst h
              simp [ih bs hrest]

theorem collectMap_get {α β : Type} (f : α → Option β) :
    ∀ (l : List α) (l2 : List β), collectMap f l = some l2 →
      ∀ i (hi : i < l.length) (hj : i < l2.length),
        f (l.get ⟨i, hi⟩) = some (l2.get ⟨i, hj⟩) := by
  intro l
  induction l with
  | nil => intro l2 h i hi; exact absurd hi (by simp)
  | cons a rest ih =>
      intro l2 h i hi hj
      simp only [collectMap] at h
      cases hfa : f a with
      | none => rw [hfa] at h; simp at h
      | some b =>
          rw [hfa] at h
          cases hrest : collectMap f rest with
          | none => rw [hrest] at h; simp at h
          | some bs =>
              rw [hrest] at h
              simp at h
              subst h
              cases i with
              | zero => simpa using hfa
              | succ n =>
                  exact ih bs hrest n (by simpa using hi) (by simpa using hj)

/-- Spec-side description of the wire filter produced for one local
filter (spec §4.1): a `PropertyFilter` carrying the property name, the
matching wire operator, and the converted value. -/
def specPropertyFilter (project_name : String) (f : Filter) : api.Filter :=
  let t : String × api.PropertyOperator × Value :=
    match f with
    | Filter.Equal name value => (name, api.PropertyOperator.Equal, value)
    | Filter.GreaterThan name value => (name, api.PropertyOperator.GreaterThan, value)
    | Filter.LesserThan name value => (name, api.PropertyOperator.LessThan, value)
    | Filter.GreaterThanOrEqual name value =>
        (name, api.PropertyOperator.GreaterThanOrEqual, value)
    | Filter.LesserThanEqual name value =>
        (name, api.PropertyOperator.LessThanOrEqual, value)
    | Filter.NotEqual name value => (name, api.PropertyOperator.NotEqual, value)
    | Filter.In name value => (name, api.PropertyOperator.In, value)
    | Filter.NotIn name value => (name, api.PropertyOperator.NotIn, value)
  api.Filter.mk (some (api.FilterType.PropertyFilter
    (api.PropertyFilter.mk (some { name := t.1 }) t.2.1.toi32
      (some (convert_value project_name t.2.2)))))

/-- C6: `convert_filter` maps the empty filter list to no wire filter,
and every non-empty list — a singleton included — to a single composite
wire filter whose operator is Boolean AND and whose children are exactly
one `PropertyFilter` per local filter, in list order. -/
theorem convert_filter_and_composite (project_name : String)
    (filters : List Filter) :
    convert_filter project_name [] = none ∧
    (filters ≠ [] →
      convert_filter project_name filters =
        some (api.Filter.mk (some (api.FilterType.CompositeFilter
          (api.CompositeFilter.mk api.CompositeOperator.And.toi32
            (filters.map (specPropertyFilter project_name))))))) := by
  refine ⟨rfl, fun hne => ?_⟩
  cases filters with
  | nil => exact absurd rfl hne
  | cons f fs =>
      simp only [convert_filter, List.isEmpty_cons, Bool.not_false, if_true]
      refine congrArg some (congrArg api.Filter.mk (congrArg some
        (congrArg api.FilterType.CompositeFilter
          (congrArg (api.CompositeFilter.mk api.CompositeOperator.And.toi32) ?_))))
      apply List.map_congr_left
      intro g _
      cases g <;> rfl

/-- Witness for `convert_filter_and_composite`: a singleton filter list
still produces a Boolean-AND composite with one property filter. -/
theorem convert_filter_and_composite_witness :
    convert_filter "p" [Filter.Equal "age" (Value.IntegerValue 30)] =
      some (api.Filter.mk (some (api.FilterType.CompositeFilter
        (api.CompositeFilter.mk api.CompositeOperator.And.toi32
          [specPropertyFilter "p" (Filter.Equal "age" (Value.IntegerValue 30))])))) := by
  have h := (convert_filter_and_composite "p"
    [Filter.Equal "age" (Value.IntegerValue 30)]).2 (by simp)
  simpa using h

/-- C7: `convert_value` flattens the indexed wrapper destructively: for
`IndexedValue(inner, flag)` the produced wire value carries the inner
value's (recursively converted) `value_type` with `exclude_from_indexes`
set to the negation of the wrapper's flag; for every other variant the
produced wire value has `exclude_from_indexes = false` (and the wire
value type has no wrapper constructor at all). -/
theorem convert_value_indexed_flattening (project_name : String) (value : Value) :
    (∀ inner flag, value = Value.IndexedValue inner flag →
      convert_value project_name value =
        api.Value.mk 0 (!flag) (convert_value project_name inner).value_type) ∧
    ((∀ inner flag, value ≠ Value.IndexedValue inner flag) →
      (convert_value project_name value).exclude_from_indexes = false) := by
  constructor
  · rintro inner flag rfl
    simp [convert_value, convertValuePair, api.Value.value_type]
  · intro hne
    cases value with
    | IndexedValue inner flag => exact absurd rfl (hne inner flag)
    | BooleanValue v => simp [convert_value, convertValuePair, api.Value.exclude_from_indexes]
    | IntegerValue v => simp [convert_value, convertValuePair, api.Value.exclude_from_indexes]
    | DoubleValue v => simp [convert_value, convertValuePair, api.Value.exclude_from_indexes]
    | TimestampValue v => simp [convert_value, convertValuePair, api.Value.exclude_from_indexes]
    | KeyValue v => simp [convert_value, convertValuePair, api.Value.exclude_from_indexes]
    | StringValue v => simp [convert_value, convertValuePair, api.Value.exclude_from_indexes]
    | BlobValue v => simp [convert_value, convertValuePair, api.Value.exclude_from_indexes]
    | GeoPointValue la lo => simp [convert_value, convertValuePair, api.Value.exclude_from_indexes]
    | EntityValue ps => simp [convert_value, convertValuePair, api.Value.exclude_from_indexes]
    | ArrayValue vs => simp [convert_value, convertValuePair, api.Value.exclude_from_indexes]

/-- Witness for `convert_value_indexed_flattening`: an indexed-wrapped
string (flag `true`) flattens to the inner wire value with
`exclude_from_indexes = false`, and a bare string value has
`exclude_from_indexes = false`. -/
theorem convert_value_indexed_flattening_witness :
    convert_value "p" (Value.IndexedValue (Value.StringValue "s") true) =
      api.Value.mk 0 (!true) (convert_value "p" (Value.StringValue "s")).value_type ∧
    (convert_value "p" (Value.StringValue "t")).exclude_from_indexes = false := by
  constructor
  · exact (convert_value_indexed_flattening "p"
      (Value.IndexedValue (Value.StringValue "s") true)).1 (Value.StringValue "s") true rfl
  · exact (convert_value_indexed_flattening "p" (Value.StringValue "t")).2
      (by intro inner flag h; cases h)

end Datastore

namespace Datastore

theorem list_all_map {α β : Type} (f : α → β) (p : β → Bool) (l : List α) :
    (l.map f).all p = l.all (fun a => p (f a)) := by
  induction l with
  | nil => rfl
  | cons a rest ih => simp [ih]

theorem wireIdOf_isSome (id : KeyID) : (wireIdOf id).isSome = id.isComplete := by
  cases id <;> rfl

theorem allComplete_pathPairs (k : Key) :
    k.allComplete = (Key.pathPairs k).all (fun pr => pr.2.isComplete) := by
  induction k with
  | root kind id nspace => simp [Key.allComplete, Key.pathPairs]
  | child kind id nspace parent ih =>
      simp [Key.allComplete, Key.pathPairs, List.all_append, ih, Bool.and_comm]

theorem convert_key_complete (project_name : String) (key : Key)
    (h : key.allComplete = true) :
    (convert_key project_name key).isComplete = true := by
  have hp := convert_key_path project_name key
  rw [allComplete_pathPairs] at h
  simp only [api.Key.isComplete, hp, list_all_map, api.PathElement.isComplete]
  simpa [wireIdOf_isSome] using h

/-- Counterexample to C5 as stated: `delete_all` performs no completeness
check, so deleting a locally incomplete key produces a `Delete` mutation
whose wire key is incomplete (its only path element has no identifier). -/
theorem delete_incomplete_key_counterexample :
    (Client.delete_all "p"
        (RpcOutcome.ok { mutation_results := [], index_updates := 0 })
        [Key.root "A" KeyID.Incomplete none]).1.mutations =
      [{ operation := some (api.Operation.Delete
           { partition_id := some { project_id := "p", namespace_id := "" }
             path := [{ kind := "A", id_type := none }] })
         conflict_detection_strategy := none }] ∧
    api.Key.isComplete
        { partition_id := some { project_id := "p", namespace_id := "" }
          path := [{ kind := "A", id_type := none }] } = false := by
  exact ⟨rfl, rfl⟩

/-- C5 (amended): in `put_all`, each entity whose key's terminal path
element is incomplete produces an `Insert` mutation and each entity
whose key is complete produces an `Upsert` mutation (in list order); in
`delete_all`, each key produces a `Delete` mutation carrying exactly the
converted key — no completeness check is performed, and the carried wire
key is complete whenever every node of the local key's chain is
complete. -/
theorem put_delete_mutation_assembly (project_name : String)
    (entities : List Entity) (keys : List Key)
    (response : RpcOutcome api.CommitResponse)
    (hprops : ∀ e ∈ entities, ∃ ps, e.properties = Value.EntityValue ps) :
    (∃ request, (Client.put_all some project_name response entities).1 = some request ∧
      request.mutations.length = entities.length ∧
      ∀ i (hi : i < entities.length) (hm : i < request.mutations.length),
        ∃ wire, convert_entity project_name (entities.get ⟨i, hi⟩) = some wire ∧
          request.mutations.get ⟨i, hm⟩ =
            { operation := some (if (entities.get ⟨i, hi⟩).key.is_incomplete
                then api.Operation.Insert wire else api.Operation.Upsert wire)
              conflict_detection_strategy := none }) ∧
    ((Client.delete_all project_name response keys).1.mutations =
      keys.map (fun key =>
        { operation := some (api.Operation.Delete (convert_key project_name key))
          conflict_detection_strategy := none })) ∧
    (∀ key ∈ keys, key.allComplete = true →
      (convert_key project_name key).isComplete = true) := by
  refine ⟨?_, ?_, ?_⟩
  · have hconv : ∀ e ∈ entities,
        ((convert_entity project_name e).map (fun w =>
          ({ operation := some (if e.key.is_incomplete then api.Operation.Insert w
                else api.Operation.Upsert w)
             conflict_detection_strategy := none } : api.Mutation))).isSome := by
      intro e he
      obtain ⟨ps, hps⟩ := hprops e he
      simp [convert_entity, hps]
    obtain ⟨mutations, hmut⟩ := collectMap_isSome_of_forall _ entities hconv
    refine ⟨{ mutations := mutations
              mode := api.CommitMode.NonTransactional.toi32
              transaction_selector := none
              project_id := project_name }, ?_, ?_, ?_⟩
    · simp only [Client.put_all, collectMap_some_id, hmut]
      cases response with
      | fail => rfl
      | ok resp =>
          cases hk : collectMap (fun result =>
              match result.key with
              | none => some none
              | some k => (Key.fromWire k).map some) resp.mutation_results with
          | none => simp [hk]
          | some ks => simp [hk]
    · exact collectMap_length _ entities mutations hmut
    · intro i hi hm
      have hg := collectMap_get _ entities mutations hmut i hi hm
      have he := List.get_mem entities i hi
      obtain ⟨ps, hps⟩ := hprops _ he
      rw [Option.map_eq_some'] at hg
      obtain ⟨wire, hwire, hmu⟩ := hg
      exact ⟨wire, hwire, hmu.symm⟩
  · cases response <;> rfl
  · intro key _ h
    exact convert_key_complete project_name key h

/-- Witness for `put_delete_mutation_assembly`: one incomplete-keyed and
one complete-keyed entity, plus one complete delete key. -/
theorem put_delete_mutation_assembly_witness :
    (∀ e ∈ [Entity.mk (Key.root "A" KeyID.Incomplete none) (Value.EntityValue []),
            Entity.mk (Key.root "B" (KeyID.IntID 7) none) (Value.EntityValue [])],
       ∃ ps, e.properties = Value.EntityValue ps) ∧
    ((∃ request, (Client.put_all some "p"
        (RpcOutcome.ok { mutation_results := [], index_updates := 0 })
        [Entity.mk (Key.root "A" KeyID.Incomplete none) (Value.EntityValue []),
         Entity.mk (Key.root "B" (KeyID.IntID 7) none) (Value.EntityValue [])]).1
          = some request ∧
      request.mutations.length =
        [Entity.mk (Key.root "A" KeyID.Incomplete none) (Value.EntityValue []),
         Entity.mk (Key.root "B" (KeyID.IntID 7) none) (Value.EntityValue [])].length ∧
      ∀ i (hi : i < [Entity.mk (Key.root "A" KeyID.Incomplete none) (Value.EntityValue []),
          Entity.mk (Key.root "B" (KeyID.IntID 7) none) (Value.EntityValue [])].length)
        (hm : i < request.mutations.length),
        ∃ wire, convert_entity "p"
            ([Entity.mk (Key.root "A" KeyID.Incomplete none) (Value.EntityValue []),
              Entity.mk (Key.root "B" (KeyID.IntID 7) none) (Value.EntityValue [])].get ⟨i, hi⟩)
            = some wire ∧
          request.mutations.get ⟨i, hm⟩ =
            { operation := some (if ([Entity.mk (Key.root "A" KeyID.Incomplete none) (Value.EntityValue []),
                  Entity.mk (Key.root "B" (KeyID.IntID 7) none) (Value.EntityValue [])].get ⟨i, hi⟩).key.is_incomplete
                then api.Operation.Insert wire else api.Operation.Upsert wire)
              conflict_detection_strategy := none }) ∧
    ((Client.delete_all "p"
        (RpcOutcome.ok { mutation_results := [], index_updates := 0 })
        [Key.root "C" (KeyID.IntID 1) none]).1.mutations =
      [Key.root "C" (KeyID.IntID 1) none].map (fun key =>
        { operation := some (api.Operation.Delete (convert_key "p" key))
          conflict_detection_strategy := none })) ∧
    (∀ key ∈ [Key.root "C" (KeyID.IntID 1) none], key.allComplete = true →
      (convert_key "p" key).isComplete = true)) := by
  constructor
  · intro e he
    rcases List.mem_cons.mp he with rfl | he2
    · exact ⟨[], rfl⟩
    · rcases List.mem_cons.mp he2 with rfl | he3
      · exact ⟨[], rfl⟩
      · simp at he3
  · exact put_delete_mutation_assembly "p" _ _ _
      (by
        intro e he
        rcases List.mem_cons.mp he with rfl | he2
        · exact ⟨[], rfl⟩
        · rcases List.mem_cons.mp he2 with rfl | he3
          · exact ⟨[], rfl⟩
          · simp at he3)

end Datastore

namespace Datastore

theorem queryLoop_spec (project_name : String) (query : Query) :
    ∀ (batches : List api.QueryResultBatch)
      (responses : List api.RunQueryResponse)
      (cur_query : Query) (cursor : List Nat) (output : List Entity),
      responses.map api.RunQueryResponse.batch = batches.map some →
      batches ≠ [] →
      (∀ b ∈ batches.dropLast,
        b.more_results = api.MoreResultsType.NotFinished.toi32) →
      (∀ h : batches ≠ [],
        (batches.getLast h).more_results ≠ api.MoreResultsType.NotFinished.toi32) →
      (∀ b ∈ batches, (batchEntities b.entity_results).isSome) →
      queryLoop project_name query (responses.map RpcOutcome.ok) cur_query cursor output =
        (mkRunQueryRequest project_name cur_query cursor ::
           batches.dropLast.map
             (fun b => mkRunQueryRequest project_name query b.end_cursor),
         CallResult.ok (output ++
           (batches.map
             (fun b => (batchEntities b.entity_results).getD [])).flatten)) := by
  intro batches
  induction batches with
  | nil => intro responses cur_query cursor output _ hne; exact absurd rfl hne
  | cons b bs ih =>
      intro responses cur_query cursor output hmap hne hnf hlast hconv
      cases responses with
      | nil => simp at hmap
      | cons r rs =>
          simp only [List.map_cons, List.cons.injEq] at hmap
          obtain ⟨hrb, hrs⟩ := hmap
          obtain ⟨ents, hents⟩ :=
            Option.isSome_iff_exists.mp (hconv b (by simp))
          cases bs with
          | nil =>
              have hterm := hlast (by simp)
              simp only [List.getLast_singleton] at hterm
              simp [queryLoop, hrb, hents, hterm]
          | cons b2 bs2 =>
              have hb1 : b.more_results = api.MoreResultsType.NotFinished.toi32 :=
                hnf b (by simp [List.dropLast_cons_of_ne_nil])
              have hrec := ih rs query b.end_cursor (output ++ ents) hrs (by simp)
                (fun x hx => hnf x (by
                  rw [List.dropLast_cons_of_ne_nil (by simp)]
                  exact List.mem_cons_of_mem b hx))
                (fun h2 => by
                  have := hlast (by simp)
                  rwa [List.getLast_cons (by simp)] at this)
                (fun x hx => hconv x (by simp [hx]))
              simp only [List.map_cons, queryLoop, hrb, hents]
              rw [if_neg (by simp [hb1])]
              simp only [hrec]
              rw [List.dropLast_cons₂]
              simp [hents, List.append_assoc]

/-- C1: for every query and every sequence of RunQuery responses whose
first n-1 batches report `NOT_FINISHED` and whose n-th batch reports any
terminal state, `Client::query` issues exactly n RunQuery requests and
returns the concatenation, in RPC order, of the converted entity results
of all n batches; the first request is built from the original query
with an empty start cursor, and every later request is built from a
fresh clone of the original query with only the start cursor replaced by
the previous batch's end cursor. -/
theorem query_pagination (project_name : String) (query : Query)
    (responses : List api.RunQueryResponse)
    (batches : List api.QueryResultBatch)
    (hmap : responses.map api.RunQueryResponse.batch = batches.map some)
    (hne : batches ≠ [])
    (hnf : ∀ b ∈ batches.dropLast,
      b.more_results = api.MoreResultsType.NotFinished.toi32)
    (hlast : ∀ h : batches ≠ [],
      (batches.getLast h).more_results ≠ api.MoreResultsType.NotFinished.toi32)
    (hconv : ∀ b ∈ batches, (batchEntities b.entity_results).isSome) :
    Client.query project_name (responses.map RpcOutcome.ok) query =
      (mkRunQueryRequest project_name query [] ::
         batches.dropLast.map
           (fun b => mkRunQueryRequest project_name query b.end_cursor),
       CallResult.ok ((batches.map
         (fun b => (batchEntities b.entity_results).getD [])).flatten)) ∧
    (Client.query project_name (responses.map RpcOutcome.ok) query).1.length
      = responses.length := by
  have h := queryLoop_spec project_name query batches responses query [] []
    hmap hne hnf hlast hconv
  have hq : Client.query project_name (responses.map RpcOutcome.ok) query =
      (mkRunQueryRequest project_name query [] ::
         batches.dropLast.map
           (fun b => mkRunQueryRequest project_name query b.end_cursor),
       CallResult.ok ((batches.map
         (fun b => (batchEntities b.entity_results).getD [])).flatten)) := by
    simpa [Client.query] using h
  refine ⟨hq, ?_⟩
  have hlen : responses.length = batches.length := by
    have hc := congrArg List.length hmap
    simpa using hc
  have hbl : batches.length ≠ 0 := by
    intro h0
    exact hne (List.length_eq_zero.mp h0)
  rw [hq]
  simp [List.length_dropLast, hlen]
  omega

def w1Entity (n : Int) : api.Entity :=
  api.Entity.mk
    (some { partition_id := some { project_id := "p", namespace_id := "" }
            path := [{ kind := "E", id_type := some (api.IdType.Id n) }] })
    []

def w1Batch1 : api.QueryResultBatch :=
  { skipped_results := 0, skipped_cursor := [], entity_result_type := 0
    entity_results := [{ entity := some (w1Entity 1), version := 0
                         update_time := none, cursor := [] }]
    end_cursor := [1], more_results := api.MoreResultsType.NotFinished.toi32
    snapshot_version := 0, read_time := none }

def w1Batch2 : api.QueryResultBatch :=
  { skipped_results := 0, skipped_cursor := [], entity_result_type := 0
    entity_results := []
    end_cursor := [2], more_results := api.MoreResultsType.NotFinished.toi32
    snapshot_version := 0, read_time := none }

def w1Batch3 : api.QueryResultBatch :=
  { skipped_results := 0, skipped_cursor := [], entity_result_type := 0
    entity_results := [{ entity := some (w1Entity 3), version := 0
                         update_time := none, cursor := [] }]
    end_cursor := [], more_results := api.MoreResultsType.NoMoreResults.toi32
    snapshot_version := 0, read_time := none }

def w1Batches : List api.QueryResultBatch := [w1Batch1, w1Batch2, w1Batch3]

def w1Responses : List api.RunQueryResponse :=
  [{ batch := some w1Batch1, query := none },
   { batch := some w1Batch2, query := none },
   { batch := some w1Batch3, query := none }]

def w1Query : Query :=
  { kind := "E", projections := [], filters := [], ordering := []
    distinct_on := [], offset := 0, limit := none, nspace := none
    eventual := false }

/-- Witness for `query_pagination`: the spec's three-batch scenario
(batches 1-2 not finished, batch 3 terminal) issues exactly three
requests with the cursors advancing, and returns the concatenated
entities of all three batches. -/
theorem query_pagination_witness :
    w1Responses.map api.RunQueryResponse.batch = w1Batches.map some ∧
    (∀ b ∈ w1Batches.dropLast,
      b.more_results = api.MoreResultsType.NotFinished.toi32) ∧
    (∀ h : w1Batches ≠ [],
      (w1Batches.getLast h).more_results
        ≠ api.MoreResultsType.NotFinished.toi32) ∧
    (∀ b ∈ w1Batches, (batchEntities b.entity_results).isSome) ∧
    Client.query "p" (w1Responses.map RpcOutcome.ok) w1Query =
      (mkRunQueryRequest "p" w1Query [] ::
         w1Batches.dropLast.map
           (fun b => mkRunQueryRequest "p" w1Query b.end_cursor),
       CallResult.ok ((w1Batches.map
         (fun b => (batchEntities b.entity_results).getD [])).flatten)) ∧
    (Client.query "p" (w1Responses.map RpcOutcome.ok) w1Query).1.length = 3 := by
  have hmap : w1Responses.map api.RunQueryResponse.batch = w1Batches.map some := rfl
  have hnf : ∀ b ∈ w1Batches.dropLast,
      b.more_results = api.MoreResultsType.NotFinished.toi32 := by
    intro b hb
    rcases List.mem_cons.mp hb with rfl | hb2
    · rfl
    · rcases List.mem_cons.mp hb2 with rfl | hb3
      · rfl
      · simp [w1Batches] at hb3
  have hlast : ∀ h : w1Batches ≠ [],
      (w1Batches.getLast h).more_results
        ≠ api.MoreResultsType.NotFinished.toi32 := by
    intro h
    simp [w1Batches, w1Batch3, api.MoreResultsType.toi32]
  have hconv : ∀ b ∈ w1Batches, (batchEntities b.entity_results).isSome := by
    intro b hb
    rcases List.mem_cons.mp hb with rfl | hb2
    · simp [w1Batch1, batchEntities, collectMap, w1Entity, Entity.fromWire,
        Key.fromWire, keyFromWirePath, propertiesFromWire]
    · rcases List.mem_cons.mp hb2 with rfl | hb3
      · simp [w1Batch2, batchEntities, collectMap]
      · rcases List.mem_cons.mp hb3 with rfl | hb4
        · simp [w1Batch3, batchEntities, collectMap, w1Entity, Entity.fromWire,
            Key.fromWire, keyFromWirePath, propertiesFromWire]
        · simp at hb4
  have h := query_pagination "p" w1Query w1Responses w1Batches hmap
    (by simp [w1Batches]) hnf hlast hconv
  exact ⟨hmap, hnf, hlast, hconv, h.1, by rw [h.2]; rfl⟩

end Datastore

namespace Datastore

theorem lookupLoop_cons_ok (project_name : String) (r : api.LookupResponse)
    (rest : List (RpcOutcome api.LookupResponse)) (keys : List api.Key)
    (found : List (Key × Value)) (ents : List (Key × Value))
    (hk : keys.isEmpty = false)
    (hents : foundEntries r.found = some ents) :
    lookupLoop project_name (RpcOutcome.ok r :: rest) keys found =
      (lookupRequestOf project_name keys ::
         (lookupLoop project_name rest r.deferred (hmExtend found ents)).1,
       (lookupLoop project_name rest r.deferred (hmExtend found ents)).2) := by
  simp only [lookupLoop, hk, Bool.false_eq_true, if_false, hents]

theorem lookupLoop_spec (project_name : String) :
    ∀ (rs : List api.LookupResponse) (keys : List api.Key)
      (found : List (Key × Value)),
      keys ≠ [] →
      rs ≠ [] →
      (∀ r ∈ rs.dropLast, r.deferred ≠ []) →
      (∀ h : rs ≠ [], (rs.getLast h).deferred = []) →
      (∀ r ∈ rs, (foundEntries r.found).isSome) →
      lookupLoop project_name (rs.map RpcOutcome.ok) keys found =
        (lookupRequestOf project_name keys ::
           rs.dropLast.map (fun r => lookupRequestOf project_name r.deferred),
         CallResult.ok (rs.foldl
           (fun m r => hmExtend m ((foundEntries r.found).getD [])) found)) := by
  intro rs
  induction rs with
  | nil => intro keys found _ hne; exact absurd rfl hne
  | cons r rest ih =>
      intro keys found hkeys hne hdrop hlast hconv
      obtain ⟨ents, hents⟩ :=
        Option.isSome_iff_exists.mp (hconv r (by simp))
      have hkne : keys.isEmpty = false := by
        cases keys with
        | nil => exact absurd rfl hkeys
        | cons k ks => rfl
      cases rest with
      | nil =>
          have hdef := hlast (by simp)
          simp only [List.getLast_singleton] at hdef
          simp [lookupLoop, hkne, hents, hdef]
      | cons r2 rest2 =>
          have hd1 : r.deferred ≠ [] :=
            hdrop r (by simp [List.dropLast_cons_of_ne_nil])
          have hrec := ih r.deferred (hmExtend found ents)
            hd1 (by simp)
            (fun x hx => hdrop x (by
              rw [List.dropLast_cons_of_ne_nil (by simp)]
              exact List.mem_cons_of_mem r hx))
            (fun h2 => by
              have := hlast (by simp)
              rwa [List.getLast_cons (by simp)] at this)
            (fun x hx => hconv x (by simp [hx]))
          rw [List.map_cons,
            lookupLoop_cons_ok project_name r _ keys found ents hkne hents]
          simp only [hrec]
          rw [List.dropLast_cons₂]
          simp [hents]

/-- C2: for every non-empty key list and every sequence of lookup
responses whose first n-1 responses carry a non-empty deferred key list
and whose n-th response carries none, `Client::get_all` issues exactly n
lookup requests — the first for the converted input keys, each later one
for precisely the previous response's deferred keys — and its result is
the accumulated found map (each response's found entities merged in, in
RPC order), read back in input-key order. -/
theorem get_all_deferred_retry (project_name : String) (og_keys : List Key)
    (rs : List api.LookupResponse)
    (hog : og_keys ≠ []) (hne : rs ≠ [])
    (hdrop : ∀ r ∈ rs.dropLast, r.deferred ≠ [])
    (hlast : ∀ h : rs ≠ [], (rs.getLast h).deferred = [])
    (hconv : ∀ r ∈ rs, (foundEntries r.found).isSome) :
    Client.get_all some project_name (rs.map RpcOutcome.ok) og_keys =
      (lookupRequestOf project_name (og_keys.map (convert_key project_name)) ::
         rs.dropLast.map (fun r => lookupRequestOf project_name r.deferred),
       CallResult.ok (removeAll og_keys
         (rs.foldl (fun m r => hmExtend m ((foundEntries r.found).getD []))
           []))) ∧
    (Client.get_all some project_name (rs.map RpcOutcome.ok) og_keys).1.length
      = rs.length := by
  have hkne : og_keys.map (convert_key project_name) ≠ [] := by
    cases og_keys with
    | nil => exact absurd rfl hog
    | cons k ks => simp
  have h := lookupLoop_spec project_name rs
    (og_keys.map (convert_key project_name)) [] hkne hne hdrop hlast hconv
  have hq : Client.get_all some project_name (rs.map RpcOutcome.ok) og_keys =
      (lookupRequestOf project_name (og_keys.map (convert_key project_name)) ::
         rs.dropLast.map (fun r => lookupRequestOf project_name r.deferred),
       CallResult.ok (removeAll og_keys
         (rs.foldl (fun m r => hmExtend m ((foundEntries r.found).getD []))
           []))) := by
    simp [Client.get_all, h, collectMap_some_id]
  refine ⟨hq, ?_⟩
  have hbl : rs.length ≠ 0 := by
    intro h0
    exact hne (List.length_eq_zero.mp h0)
  rw [hq]
  simp [List.length_dropLast]
  omega

def w2Key (n : Int) : Key := Key.root "K" (KeyID.IntID n) none

def w2WireEntity (n : Int) : api.Entity :=
  api.Entity.mk (some (convert_key "p" (w2Key n))) []

def w2Result (n : Int) : api.EntityResult :=
  { entity := some (w2WireEntity n), version := 0, update_time := none
    cursor := [] }

def w2Response1 : api.LookupResponse :=
  { found := [w2Result 1], missing := []
    deferred := [convert_key "p" (w2Key 2), convert_key "p" (w2Key 3)] }

def w2Response2 : api.LookupResponse :=
  { found := [w2Result 2, w2Result 3], missing := [], deferred := [] }

def w2Responses : List api.LookupResponse := [w2Response1, w2Response2]

def w2Keys : List Key := [w2Key 1, w2Key 2, w2Key 3]

/-- Witness for `get_all_deferred_retry`: the spec's scenario — first
lookup defers k2 and k3, the second resolves them — issues exactly two
lookup requests (the second restricted to the deferred keys) and returns
the entities of k1, k2 and k3 in input order. -/
theorem get_all_deferred_retry_witness :
    (∀ r ∈ w2Responses.dropLast, r.deferred ≠ []) ∧
    (∀ h : w2Responses ≠ [], (w2Responses.getLast h).deferred = []) ∧
    (∀ r ∈ w2Responses, (foundEntries r.found).isSome) ∧
    Client.get_all some "p" (w2Responses.map RpcOutcome.ok) w2Keys =
      (lookupRequestOf "p" (w2Keys.map (convert_key "p")) ::
         w2Responses.dropLast.map
           (fun r => lookupRequestOf "p" r.deferred),
       CallResult.ok (removeAll w2Keys
         (w2Responses.foldl
           (fun m r => hmExtend m ((foundEntries r.found).getD [])) []))) ∧
    (Client.get_all some "p" (w2Responses.map RpcOutcome.ok) w2Keys).1.length
      = 2 ∧
    removeAll w2Keys
        (w2Responses.foldl
          (fun m r => hmExtend m ((foundEntries r.found).getD [])) []) =
      [Value.EntityValue [], Value.EntityValue [], Value.EntityValue []] := by
  have hdrop : ∀ r ∈ w2Responses.dropLast, r.deferred ≠ [] := by
    intro r hr
    rcases List.mem_cons.mp hr with rfl | hr2
    · simp [w2Response1]
    · simp [w2Responses] at hr2
  have hlast : ∀ h : w2Responses ≠ [], (w2Responses.getLast h).deferred = [] := by
    intro h
    rfl
  have hconv : ∀ r ∈ w2Responses, (foundEntries r.found).isSome := by
    intro r hr
    rcases List.mem_cons.mp hr with rfl | hr2
    · simp [w2Response1, foundEntries, collectMap, w2Result, w2WireEntity,
        Entity.fromWire, convert_key, keyPathRev, pathElementOf, Key.fromWire,
        keyFromWirePath, propertiesFromWire, w2Key, Key.get_kind, Key.get_id,
        Key.get_namespace]
    · rcases List.mem_cons.mp hr2 with rfl | hr3
      · simp [w2Response2, foundEntries, collectMap, w2Result, w2WireEntity,
          Entity.fromWire, convert_key, keyPathRev, pathElementOf, Key.fromWire,
          keyFromWirePath, propertiesFromWire, w2Key, Key.get_kind, Key.get_id,
          Key.get_namespace]
      · simp [w2Responses] at hr3
  have h := get_all_deferred_retry "p" w2Keys w2Responses
    (by simp [w2Keys]) (by simp [w2Responses]) hdrop hlast hconv
  refine ⟨hdrop, hlast, hconv, h.1, by rw [h.2]; rfl, ?_⟩
  simp [w2Keys, w2Responses, w2Response1, w2Response2, foundEntries,
    collectMap, w2Result, w2WireEntity, Entity.fromWire, convert_key,
    keyPathRev, pathElementOf, Key.fromWire, keyFromWirePath,
    propertiesFromWire, w2Key, Key.get_kind, Key.get_id, Key.get_namespace,
    hmExtend, hmInsert, hmErase, removeAll, hmLookup, keyIDFromWire]

end Datastore

namespace Datastore

theorem lookupLoop_nil_keys (project_name : String)
    (responses : List (RpcOutcome api.LookupResponse))
    (found : List (Key × Value)) :
    lookupLoop project_name responses [] found = ([], CallResult.ok found) := by
  cases responses with
  | nil => simp [lookupLoop]
  | cons r rest => cases r <;> simp [lookupLoop]

theorem lookupLoop_ok_of_exists (project_name : String) :
    ∀ (rs : List api.LookupResponse) (keys : List api.Key)
      (found : List (Key × Value)),
      (∀ r ∈ rs, (foundEntries r.found).isSome) →
      (∃ r ∈ rs, r.deferred = []) →
      ∃ m, (lookupLoop project_name (rs.map RpcOutcome.ok) keys found).2
        = CallResult.ok m := by
  intro rs
  induction rs with
  | nil => intro keys found _ hex; simp at hex
  | cons r rest ih =>
      intro keys found hconv hex
      by_cases hk : keys.isEmpty
      · exact ⟨found, by simp [lookupLoop, hk]⟩
      · obtain ⟨ents, hents⟩ := Option.isSome_iff_exists.mp (hconv r (by simp))
        rw [List.map_cons,
          lookupLoop_cons_ok project_name r _ keys found ents
            (by simpa using hk) hents]
        by_cases hd : r.deferred = []
        · exact ⟨hmExtend found ents, by simp [hd, lookupLoop_nil_keys]⟩
        · have hex2 : ∃ r2 ∈ rest, r2.deferred = [] := by
            rcases hex with ⟨r2, hr2, hd2⟩
            rcases List.mem_cons.mp hr2 with rfl | hmem
            · exact absurd hd2 hd
            · exact ⟨r2, hmem, hd2⟩
          exact ih r.deferred (hmExtend found ents)
            (fun x hx => hconv x (by simp [hx])) hex2

theorem lookupLoop_hung_of_forall (project_name : String) :
    ∀ (rs : List api.LookupResponse) (keys : List api.Key)
      (found : List (Key × Value)),
      keys ≠ [] →
      (∀ r ∈ rs, (foundEntries r.found).isSome) →
      (∀ r ∈ rs, r.deferred ≠ []) →
      (lookupLoop project_name (rs.map RpcOutcome.ok) keys found).2
        = CallResult.hung := by
  intro rs
  induction rs with
  | nil =>
      intro keys found hk _ _
      have hkne : keys.isEmpty = false := by
        cases keys with
        | nil => exact absurd rfl hk
        | cons a l => rfl
      simp [lookupLoop, hkne]
  | cons r rest ih =>
      intro keys found hk hconv hdef
      have hkne : keys.isEmpty = false := by
        cases keys with
        | nil => exact absurd rfl hk
        | cons a l => rfl
      obtain ⟨ents, hents⟩ := Option.isSome_iff_exists.mp (hconv r (by simp))
      rw [List.map_cons,
        lookupLoop_cons_ok project_name r _ keys found ents hkne hents]
      exact ih r.deferred (hmExtend found ents) (hdef r (by simp))
        (fun x hx => hconv x (by simp [hx]))
        (fun x hx => hdef x (by simp [hx]))

/-- C8: the deferred-lookup loop of `get_all` terminates exactly when
some lookup response returns an empty deferred key list: whenever the
(well-formed) response sequence contains such a response, the call
returns successfully after finitely many lookups; when every supplied
response keeps deferring (and the key set is non-empty), the call
consumes the entire sequence and is still blocked waiting on a further
RPC — there is no iteration cap and no backoff. -/
theorem get_all_termination (project_name : String) (og_keys : List Key)
    (rs : List api.LookupResponse)
    (hog : og_keys ≠ [])
    (hconv : ∀ r ∈ rs, (foundEntries r.found).isSome) :
    ((∃ r ∈ rs, r.deferred = []) →
      ∃ values,
        (Client.get_all some project_name (rs.map RpcOutcome.ok) og_keys).2
          = CallResult.ok values) ∧
    ((∀ r ∈ rs, r.deferred ≠ []) →
      (Client.get_all some project_name (rs.map RpcOutcome.ok) og_keys).2
        = CallResult.hung) := by
  constructor
  · intro hex
    obtain ⟨m, hm⟩ := lookupLoop_ok_of_exists project_name rs
      (og_keys.map (convert_key project_name)) [] hconv hex
    refine ⟨removeAll og_keys m, ?_⟩
    simp [Client.get_all, hm, collectMap_some_id]
  · intro hall
    have hkne : og_keys.map (convert_key project_name) ≠ [] := by
      cases og_keys with
      | nil => exact absurd rfl hog
      | cons k ks => simp
    have hm := lookupLoop_hung_of_forall project_name rs
      (og_keys.map (convert_key project_name)) [] hkne hconv hall
    simp [Client.get_all, hm]

/-- Witness for `get_all_termination`: with the two-response scenario
(second response resolves everything) the call returns `ok`; with only
the perpetually-deferring first response supplied, the call is still
blocked. -/
theorem get_all_termination_witness :
    (∀ r ∈ w2Responses, (foundEntries r.found).isSome) ∧
    (∃ values,
      (Client.get_all some "p" (w2Responses.map RpcOutcome.ok) w2Keys).2
        = CallResult.ok values) ∧
    (∀ r ∈ [w2Response1], r.deferred ≠ []) ∧
    (Client.get_all some "p" ([w2Response1].map RpcOutcome.ok) w2Keys).2
      = CallResult.hung := by
  have hconv : ∀ r ∈ w2Responses, (foundEntries r.found).isSome := by
    intro r hr
    rcases List.mem_cons.mp hr with rfl | hr2
    · simp [w2Response1, foundEntries, collectMap, w2Result, w2WireEntity,
        Entity.fromWire, convert_key, keyPathRev, pathElementOf, Key.fromWire,
        keyFromWirePath, propertiesFromWire, w2Key, Key.get_kind, Key.get_id,
        Key.get_namespace]
    · rcases List.mem_cons.mp hr2 with rfl | hr3
      · simp [w2Response2, foundEntries, collectMap, w2Result, w2WireEntity,
          Entity.fromWire, convert_key, keyPathRev, pathElementOf, Key.fromWire,
          keyFromWirePath, propertiesFromWire, w2Key, Key.get_kind, Key.get_id,
          Key.get_namespace]
      · simp [w2Responses] at hr3
  have hconv1 : ∀ r ∈ [w2Response1], (foundEntries r.found).isSome := by
    intro r hr
    rcases List.mem_cons.mp hr with rfl | hr2
    · exact hconv w2Response1 (by simp [w2Responses])
    · simp at hr2
  have hdef1 : ∀ r ∈ [w2Response1], r.deferred ≠ [] := by
    intro r hr
    rcases List.mem_cons.mp hr with rfl | hr2
    · simp [w2Response1]
    · simp at hr2
  refine ⟨hconv, ?_, hdef1, ?_⟩
  · exact (get_all_termination "p" w2Keys w2Responses (by simp [w2Keys])
      hconv).1 ⟨w2Response2, by simp [w2Responses], rfl⟩
  · exact (get_all_termination "p" w2Keys [w2Response1] (by simp [w2Keys])
      hconv1).2 hdef1

end Datastore

namespace Datastore

/-- The first-occurrence subsequence of a key list: keeps each distinct
key at the position of its first appearance. -/
def firstOcc : List Key → List Key
  | [] => []
  | k :: rest => k :: firstOcc (rest.filter (fun x => !decide (x = k)))
termination_by l => l.length
decreasing_by
  calc (rest.filter (fun x => !decide (x = k))).length
      ≤ rest.length := List.length_filter_le _ _
    _ < (k :: rest).length := by simp

theorem hmLookup_cons (e : Key × Value) (rest : List (Key × Value)) (k : Key) :
    hmLookup (e :: rest) k =
      if e.1 = k then some e.2 else hmLookup rest k := by
  by_cases h : e.1 = k
  · simp [hmLookup, List.find?_cons_of_pos, h]
  · simp [hmLookup, List.find?_cons_of_neg, h]

theorem hmErase_cons (e : Key × Value) (rest : List (Key × Value)) (k : Key) :
    hmErase (e :: rest) k =
      if e.1 = k then hmErase rest k else e :: hmErase rest k := by
  by_cases h : e.1 = k <;> simp [hmErase, List.filter_cons, h]

theorem hmLookup_erase_ne (k k' : Key) (hne : k' ≠ k) :
    ∀ m : List (Key × Value), hmLookup (hmErase m k) k' = hmLookup m k' := by
  intro m
  induction m with
  | nil => rfl
  | cons e rest ih =>
      by_cases he : e.1 = k
      · rw [hmErase_cons, if_pos he, hmLookup_cons,
          if_neg (fun hh => hne (hh.symm.trans he))]
        exact ih
      · rw [hmErase_cons, if_neg he, hmLookup_cons, hmLookup_cons]
        by_cases he' : e.1 = k'
        · rw [if_pos he', if_pos he']
        · rw [if_neg he', if_neg he']
          exact ih

theorem hmLookup_erase_self (k : Key) :
    ∀ m : List (Key × Value), hmLookup (hmErase m k) k = none := by
  intro m
  induction m with
  | nil => rfl
  | cons e rest ih =>
      by_cases he : e.1 = k
      · rw [hmErase_cons, if_pos he]
        exact ih
      · rw [hmErase_cons, if_neg he, hmLookup_cons, if_neg he]
        exact ih

theorem hmErase_of_lookup_none (k : Key) :
    ∀ m : List (Key × Value), hmLookup m k = none → hmErase m k = m := by
  intro m
  induction m with
  | nil => intro _; rfl
  | cons e rest ih =>
      intro h
      rw [hmLookup_cons] at h
      by_cases he : e.1 = k
      · rw [if_pos he] at h
        exact absurd h (by simp)
      · rw [if_neg he] at h
        rw [hmErase_cons, if_neg he, ih h]

theorem hmLookup_append (m1 m2 : List (Key × Value)) (k : Key) :
    hmLookup (m1 ++ m2) k =
      match hmLookup m1 k with
      | some v => some v
      | none => hmLookup m2 k := by
  induction m1 with
  | nil => simp [hmLookup]
  | cons e rest ih =>
      rw [List.cons_append, hmLookup_cons, hmLookup_cons]
      by_cases he : e.1 = k
      · rw [if_pos he, if_pos he]
      · rw [if_neg he, if_neg he, ih]

theorem hmLookup_insert (m : List (Key × Value)) (j : Key) (v : Value) (k : Key) :
    hmLookup (hmInsert m j v) k = if j = k then some v else hmLookup m k := by
  unfold hmInsert
  rw [hmLookup_append]
  by_cases hjk : j = k
  · subst hjk
    rw [hmLookup_erase_self j m]
    simp [hmLookup_cons]
  · rw [hmLookup_erase_ne j k (fun hh => hjk hh.symm) m]
    cases hmk : hmLookup m k with
    | some v2 => simp [hjk]
    | none => simp [hjk, hmLookup_cons, hmLookup]

theorem hmLookup_extend_none (k : Key) :
    ∀ (es : List (Key × Value)) (m : List (Key × Value)),
      hmLookup m k = none → (∀ e ∈ es, e.1 ≠ k) →
      hmLookup (hmExtend m es) k = none := by
  intro es
  induction es with
  | nil => intro m hm _; exact hm
  | cons e rest ih =>
      intro m hm hes
      show hmLookup (hmExtend (hmInsert m e.1 e.2) rest) k = none
      apply ih
      · rw [hmLookup_insert, if_neg (hes e (by simp))]
        exact hm
      · intro x hx
        exact hes x (by simp [hx])

theorem removeAll_cons (x : Key) (rest : List Key) (m : List (Key × Value)) :
    removeAll (x :: rest) m =
      match hmLookup m x with
      | some v => v :: removeAll rest (hmErase m x)
      | none => removeAll rest (hmErase m x) := rfl

theorem removeAll_skip (k : Key) :
    ∀ (rest : List Key) (m : List (Key × Value)),
      hmLookup m k = none →
      removeAll rest m
        = removeAll (rest.filter (fun x => !decide (x = k))) m := by
  intro rest
  induction rest with
  | nil => intro m _; rfl
  | cons x rest' ih =>
      intro m hm
      by_cases hx : x = k
      · subst hx
        rw [List.filter_cons]
        simp only [decide_True, Bool.not_true, Bool.false_eq_true, if_false]
        rw [removeAll_cons, hm, hmErase_of_lookup_none x m hm]
        exact ih m hm
      · rw [List.filter_cons]
        rw [if_pos (by simp [hx])]
        rw [removeAll_cons, removeAll_cons]
        have hm2 : hmLookup (hmErase m x) k = none := by
          rw [hmLookup_erase_ne x k (fun hh => hx hh.symm) m]
          exact hm
        cases hmx : hmLookup m x with
        | some v => rw [ih (hmErase m x) hm2]
        | none => rw [ih (hmErase m x) hm2]

theorem mem_firstOcc : ∀ (n : Nat) (l : List Key), l.length ≤ n →
    ∀ x ∈ firstOcc l, x ∈ l := by
  intro n
  induction n with
  | zero =>
      intro l hl x hx
      have hnil : l = [] := List.length_eq_zero.mp (Nat.le_zero.mp hl)
      subst hnil
      simp [firstOcc] at hx
  | succ n ih =>
      intro l hl x hx
      cases l with
      | nil => simp [firstOcc] at hx
      | cons k rest =>
          simp only [firstOcc] at hx
          rcases List.mem_cons.mp hx with rfl | hx2
          · simp
          · have hlen : (rest.filter (fun y => !decide (y = k))).length ≤ n :=
              le_trans (List.length_filter_le _ _) (by simpa using hl)
            have hmem := ih _ hlen x hx2
            have hmem2 := List.mem_filter.mp hmem
            simp [hmem2.1]

theorem mem_firstOcc' (l : List Key) (x : Key) (hx : x ∈ firstOcc l) : x ∈ l :=
  mem_firstOcc l.length l le_rfl x hx

theorem nodup_firstOcc : ∀ (n : Nat) (l : List Key), l.length ≤ n →
    (firstOcc l).Nodup := by
  intro n
  induction n with
  | zero =>
      intro l hl
      have hnil : l = [] := List.length_eq_zero.mp (Nat.le_zero.mp hl)
      subst hnil
      simp [firstOcc]
  | succ n ih =>
      intro l hl
      cases l with
      | nil => simp [firstOcc]
      | cons k rest =>
          simp only [firstOcc]
          rw [List.nodup_cons]
          have hlen : (rest.filter (fun y => !decide (y = k))).length ≤ n :=
            le_trans (List.length_filter_le _ _) (by simpa using hl)
          refine ⟨?_, ih _ hlen⟩
          intro hk
          have hmem := mem_firstOcc' _ _ hk
          have hmem2 := List.mem_filter.mp hmem
          simp at hmem2

theorem nodup_firstOcc' (l : List Key) : (firstOcc l).Nodup :=
  nodup_firstOcc l.length l le_rfl

theorem removeAll_eq_firstOcc : ∀ (n : Nat) (ks : List Key), ks.length ≤ n →
    ∀ m : List (Key × Value),
      removeAll ks m = (firstOcc ks).filterMap (fun k => hmLookup m k) := by
  intro n
  induction n with
  | zero =>
      intro ks hl m
      have hnil : ks = [] := List.length_eq_zero.mp (Nat.le_zero.mp hl)
      subst hnil
      simp [firstOcc, removeAll]
  | succ n ih =>
      intro ks hl m
      cases ks with
      | nil => simp [firstOcc, removeAll]
      | cons x rest =>
          simp only [firstOcc]
          rw [removeAll_cons, List.filterMap_cons]
          have hlen : (rest.filter (fun y => !decide (y = x))).length ≤ n :=
            le_trans (List.length_filter_le _ _) (by simpa using hl)
          have hcongr :
              (firstOcc (rest.filter (fun y => !decide (y = x)))).filterMap
                  (fun k => hmLookup (hmErase m x) k)
                = (firstOcc (rest.filter (fun y => !decide (y = x)))).filterMap
                  (fun k => hmLookup m k) := by
            apply List.filterMap_congr
            intro y hy
            have hmem := List.mem_filter.mp (mem_firstOcc' _ _ hy)
            have hne : y ≠ x := by simpa using hmem.2
            exact hmLookup_erase_ne x y hne m
          cases hmx : hmLookup m x with
          | some v =>
              rw [removeAll_skip x rest (hmErase m x) (hmLookup_erase_self x m),
                ih _ hlen (hmErase m x), hcongr]
          | none =>
              rw [removeAll_skip x rest (hmErase m x) (hmLookup_erase_self x m),
                ih _ hlen (hmErase m x), hcongr]

theorem removeAll_eq_firstOcc' (ks : List Key) (m : List (Key × Value)) :
    removeAll ks m = (firstOcc ks).filterMap (fun k => hmLookup m k) :=
  removeAll_eq_firstOcc ks.length ks le_rfl m

end Datastore

namespace Datastore

theorem hmLookup_fold_extend_none (key : Key) :
    ∀ (rs : List api.LookupResponse) (m : List (Key × Value)),
      hmLookup m key = none →
      (∀ r ∈ rs, ∀ e ∈ (foundEntries r.found).getD [], e.1 ≠ key) →
      hmLookup
        (rs.foldl (fun m r => hmExtend m ((foundEntries r.found).getD [])) m)
        key = none := by
  intro rs
  induction rs with
  | nil => intro m hm _; exact hm
  | cons r rest ih =>
      intro m hm hr
      rw [List.foldl_cons]
      apply ih
      · exact hmLookup_extend_none key _ m hm (hr r (by simp))
      · intro x hx
        exact hr x (by simp [hx])

/-- C10: under the terminating well-formed lookup-response pattern, the
vector `get_all` returns contains at most one value per distinct input
key — it is exactly the accumulated found map read at the first
occurrence of each distinct input key, in input order (`firstOcc` keys
are pairwise distinct) — and keys the responses never resolve are
silently omitted; in particular `Client::get` of a key no response
resolves returns `Ok(None)`. -/
theorem get_all_first_occurrence (project_name : String) (og_keys : List Key)
    (rs : List api.LookupResponse) (key : Key)
    (hog : og_keys ≠ []) (hne : rs ≠ [])
    (hdrop : ∀ r ∈ rs.dropLast, r.deferred ≠ [])
    (hlast : ∀ h : rs ≠ [], (rs.getLast h).deferred = [])
    (hconv : ∀ r ∈ rs, (foundEntries r.found).isSome) :
    (Client.get_all some project_name (rs.map RpcOutcome.ok) og_keys).2 =
      CallResult.ok ((firstOcc og_keys).filterMap
        (fun k => hmLookup
          (rs.foldl (fun m r => hmExtend m ((foundEntries r.found).getD [])) [])
          k)) ∧
    (firstOcc og_keys).Nodup ∧
    ((∀ r ∈ rs, ∀ e ∈ (foundEntries r.found).getD [], e.1 ≠ key) →
      (Client.get some project_name (rs.map RpcOutcome.ok) key).2
        = CallResult.ok none) := by
  have hchar : ∀ ks : List Key, ks ≠ [] →
      (Client.get_all some project_name (rs.map RpcOutcome.ok) ks).2 =
        CallResult.ok (removeAll ks
          (rs.foldl (fun m r => hmExtend m ((foundEntries r.found).getD []))
            [])) := by
    intro ks hks
    have hkne : ks.map (convert_key project_name) ≠ [] := by
      cases ks with
      | nil => exact absurd rfl hks
      | cons k0 ks0 => simp
    have h := lookupLoop_spec project_name rs
      (ks.map (convert_key project_name)) [] hkne hne hdrop hlast hconv
    simp [Client.get_all, h, collectMap_some_id]
  refine ⟨?_, nodup_firstOcc' og_keys, ?_⟩
  · rw [hchar og_keys hog, removeAll_eq_firstOcc']
  · intro hnone
    have hlk : hmLookup
        (rs.foldl (fun m r => hmExtend m ((foundEntries r.found).getD [])) [])
        key = none :=
      hmLookup_fold_extend_none key rs [] rfl hnone
    have h1 := hchar [key] (by simp)
    have h2 : removeAll [key]
        (rs.foldl (fun m r => hmExtend m ((foundEntries r.found).getD [])) [])
        = [] := by
      rw [removeAll_eq_firstOcc']
      simp [firstOcc, hlk]
    rw [h2] at h1
    simp [Client.get, h1]

/-- Witness for `get_all_first_occurrence`: the two-response deferred
scenario, probed with a key (`K`, id 9) that no response resolves:
`get` returns `Ok(None)` and the `get_all` result is the first-occurrence
read-back of the found map. -/
theorem get_all_first_occurrence_witness :
    (∀ r ∈ w2Responses.dropLast, r.deferred ≠ []) ∧
    (∀ r ∈ w2Responses, (foundEntries r.found).isSome) ∧
    (∀ r ∈ w2Responses, ∀ e ∈ (foundEntries r.found).getD [],
      e.1 ≠ w2Key 9) ∧
    (Client.get_all some "p" (w2Responses.map RpcOutcome.ok) w2Keys).2 =
      CallResult.ok ((firstOcc w2Keys).filterMap
        (fun k => hmLookup
          (w2Responses.foldl
            (fun m r => hmExtend m ((foundEntries r.found).getD [])) [])
          k)) ∧
    (firstOcc w2Keys).Nodup ∧
    (Client.get some "p" (w2Responses.map RpcOutcome.ok) (w2Key 9)).2
      = CallResult.ok none := by
  have hconv : ∀ r ∈ w2Responses, (foundEntries r.found).isSome := by
    intro r hr
    rcases List.mem_cons.mp hr with rfl | hr2
    · simp [w2Response1, foundEntries, collectMap, w2Result, w2WireEntity,
        Entity.fromWire, convert_key, keyPathRev, pathElementOf, Key.fromWire,
        keyFromWirePath, propertiesFromWire, w2Key, Key.get_kind, Key.get_id,
        Key.get_namespace]
    · rcases List.mem_cons.mp hr2 with rfl | hr3
      · simp [w2Response2, foundEntries, collectMap, w2Result, w2WireEntity,
          Entity.fromWire, convert_key, keyPathRev, pathElementOf, Key.fromWire,
          keyFromWirePath, propertiesFromWire, w2Key, Key.get_kind, Key.get_id,
          Key.get_namespace]
      · simp [w2Responses] at hr3
  have hdrop : ∀ r ∈ w2Responses.dropLast, r.deferred ≠ [] := by
    intro r hr
    rcases List.mem_cons.mp hr with rfl | hr2
    · simp [w2Response1]
    · simp [w2Responses] at hr2
  have hlast : ∀ h : w2Responses ≠ [], (w2Responses.getLast h).deferred = [] := by
    intro h
    rfl
  have hnone : ∀ r ∈ w2Responses, ∀ e ∈ (foundEntries r.found).getD [],
      e.1 ≠ w2Key 9 := by
    intro r hr e he
    rcases List.mem_cons.mp hr with rfl | hr2
    · have hfe : (foundEntries w2Response1.found).getD []
          = [(w2Key 1, Value.EntityValue [])] := by
        simp [w2Response1, foundEntries, collectMap, w2Result, w2WireEntity,
          Entity.fromWire, convert_key, keyPathRev, pathElementOf, Key.fromWire,
          keyFromWirePath, propertiesFromWire, w2Key, Key.get_kind, Key.get_id,
          Key.get_namespace, keyIDFromWire]
      rw [hfe] at he
      rcases List.mem_cons.mp he with rfl | he2
      · simp [w2Key]
      · simp at he2
    · rcases List.mem_cons.mp hr2 with rfl | hr3
      · have hfe : (foundEntries w2Response2.found).getD []
            = [(w2Key 2, Value.EntityValue []),
               (w2Key 3, Value.EntityValue [])] := by
          simp [w2Response2, foundEntries, collectMap, w2Result, w2WireEntity,
            Entity.fromWire, convert_key, keyPathRev, pathElementOf, Key.fromWire,
            keyFromWirePath, propertiesFromWire, w2Key, Key.get_kind, Key.get_id,
            Key.get_namespace, keyIDFromWire]
        rw [hfe] at he
        rcases List.mem_cons.mp he with rfl | he2
        · simp [w2Key]
        · rcases List.mem_cons.mp he2 with rfl | he3
          · simp [w2Key]
          · simp at he3
      · simp [w2Responses] at hr3
  have h := get_all_first_occurrence "p" w2Keys w2Responses (w2Key 9)
    (by simp [w2Keys]) (by simp [w2Responses]) hdrop hlast hconv
  exact ⟨hdrop, hconv, hnone, h.1, h.2.1, h.2.2 hnone⟩

end Datastore

namespace Datastore

end Datastore

namespace Datastore

end Datastore
